import Mathlib

/-!
Verification of the determinant-based CI engine of the McMurchie-Davidson
repository (mmd/postscf.py).

Determinants are modelled as natural numbers (bit i set iff spin orbital i
is occupied), matching the Python code's use of arbitrary-precision integers
and bit operations.  Real-valued integral tensors are modelled as functions
into ℝ.  The functions `residues`, `add_particles`, `tuple2bitstring`,
`hamiltonian_matrix_element`, `build_full_hamiltonian`, the CISD and FCI
drivers and the spin-orbital antisymmetrized tensor `double_bar` are
translated from the source.  The excitation analyzer (`get_excitation`,
`common_index`) lives in mmd/slater.py, which is not part of the sources;
those two functions are modelled from the specification.
-/

namespace MMD

/-- Number of set bits of a natural number (Python: bin(n).count of the
character 1).  Every set bit of n has index < n, so filtering over
range n captures all of them. -/
def popcount (n : ℕ) : ℕ := ((Finset.range n).filter (fun i => n.testBit i)).card

/-- Finset of set-bit indices of n that are below M. -/
def occSet (M n : ℕ) : Finset ℕ := (Finset.range M).filter (fun i => n.testBit i)

theorem mem_occSet {M n i : ℕ} : i ∈ occSet M n ↔ i < M ∧ n.testBit i = true := by
  simp [occSet]

theorem testBit_lt_self {n i : ℕ} (h : n.testBit i = true) : i < n :=
  lt_of_lt_of_le (Nat.lt_two_pow i) (Nat.testBit_implies_ge h)

theorem testBit_lt_of_lt_two_pow {n M i : ℕ} (h : n < 2 ^ M) (hb : n.testBit i = true) :
    i < M := by
  by_contra hM
  have : n < 2 ^ i := lt_of_lt_of_le h (Nat.pow_le_pow_right (by norm_num) (not_lt.mp hM))
  rw [Nat.testBit_lt_two_pow this] at hb
  exact Bool.false_ne_true hb

theorem lt_two_pow_of_testBit_lt {n M : ℕ} (h : ∀ i, n.testBit i = true → i < M) :
    n < 2 ^ M := by
  have hmod : n % 2 ^ M = n := by
    apply Nat.eq_of_testBit_eq
    intro i
    rw [Nat.testBit_mod_two_pow]
    by_cases hi : i < M
    · simp [hi]
    · simp only [decide_eq_false hi, Bool.false_and]
      cases hb : n.testBit i with
      | false => rfl
      | true => exact absurd (h i hb) hi
  calc n = n % 2 ^ M := hmod.symm
    _ < 2 ^ M := Nat.mod_lt _ (Nat.pos_pow_of_pos M (by norm_num))

theorem occSet_eq_occSet {a b n : ℕ} (ha : ∀ i, n.testBit i = true → i < a)
    (hb : ∀ i, n.testBit i = true → i < b) : occSet a n = occSet b n := by
  ext i
  simp only [mem_occSet]
  constructor
  · rintro ⟨-, h⟩; exact ⟨hb i h, h⟩
  · rintro ⟨-, h⟩; exact ⟨ha i h, h⟩

theorem popcount_eq_card_occSet {M n : ℕ} (h : n < 2 ^ M) :
    popcount n = (occSet M n).card := by
  unfold popcount
  have : occSet n n = occSet M n :=
    occSet_eq_occSet (fun i hi => testBit_lt_self hi)
      (fun i hi => testBit_lt_of_lt_two_pow h hi)
  exact congrArg Finset.card this

theorem sum_range_two_pow (M : ℕ) : (∑ i ∈ Finset.range M, 2 ^ i) = 2 ^ M - 1 := by
  induction M with
  | zero => simp
  | succ m ih =>
    rw [Finset.sum_range_succ, ih, pow_succ]
    have : 1 ≤ 2 ^ m := Nat.one_le_two_pow
    omega

theorem sum_two_pow_lt {M : ℕ} {A : Finset ℕ} (h : A ⊆ Finset.range M) :
    (∑ i ∈ A, 2 ^ i) < 2 ^ M := by
  have hle : (∑ i ∈ A, 2 ^ i) ≤ ∑ i ∈ Finset.range M, 2 ^ i :=
    Finset.sum_le_sum_of_subset h
  rw [sum_range_two_pow] at hle
  have : 1 ≤ 2 ^ M := Nat.one_le_two_pow
  omega

/-- Bits of a sum of distinct powers of two: bit j of ∑ i ∈ A, 2^i is set
exactly when j ∈ A. -/
theorem testBit_sum_two_pow {M : ℕ} :
    ∀ {A : Finset ℕ}, A ⊆ Finset.range M → ∀ j, (∑ i ∈ A, 2 ^ i).testBit j = (j ∈ A : Bool) := by
  induction M with
  | zero =>
    intro A hA j
    have : A = ∅ := Finset.subset_empty.mp (by simpa using hA)
    subst this
    simp [Nat.zero_testBit]
  | succ m ih =>
    intro A hA j
    by_cases hm : m ∈ A
    · have hB : A.erase m ⊆ Finset.range m := by
        intro x hx
        have hxA := Finset.mem_of_mem_erase hx
        have hxm := Finset.ne_of_mem_erase hx
        have := hA hxA
        rw [Finset.mem_range] at this ⊢
        omega
      have hsum : (∑ i ∈ A, 2 ^ i) = 2 ^ m + ∑ i ∈ A.erase m, 2 ^ i := by
        rw [add_comm, Finset.sum_erase_add A _ hm]
      have hBlt : (∑ i ∈ A.erase m, 2 ^ i) < 2 ^ m := sum_two_pow_lt hB
      rcases lt_trichotomy j m with hj | hj | hj
      · rw [hsum, Nat.testBit_two_pow_add_gt hj, ih hB j]
        have : (j ∈ A.erase m) = (j ∈ A) := by
          simp [Finset.mem_erase, Nat.ne_of_lt hj]
        simp [this]
      · subst hj
        rw [hsum, Nat.testBit_two_pow_add_eq, Nat.testBit_lt_two_pow hBlt]
        simp [hm]
      · have hlt : (∑ i ∈ A, 2 ^ i) < 2 ^ j := by
          have h1 : (∑ i ∈ A, 2 ^ i) < 2 ^ (m + 1) := sum_two_pow_lt hA
          exact lt_of_lt_of_le h1 (Nat.pow_le_pow_right (by norm_num) hj)
        rw [Nat.testBit_lt_two_pow hlt]
        have : j ∉ A := by
          intro hj2
          have := hA hj2
          rw [Finset.mem_range] at this
          omega
        simp [this]
    · have hB : A ⊆ Finset.range m := by
        intro x hx
        have := hA hx
        rw [Finset.mem_range] at this ⊢
        rcases Nat.lt_succ_iff_lt_or_eq.mp this with h | h
        · exact h
        · exact absurd (h ▸ hx) hm
      exact ih hB j

theorem sum_occSet_two_pow {M n : ℕ} (h : n < 2 ^ M) :
    (∑ i ∈ occSet M n, 2 ^ i) = n := by
  apply Nat.eq_of_testBit_eq
  intro j
  have hsub : occSet M n ⊆ Finset.range M := Finset.filter_subset _ _
  rw [testBit_sum_two_pow hsub j]
  by_cases hj : j < M
  · simp [mem_occSet, hj]
  · have : n.testBit j = false := by
      cases hb : n.testBit j with
      | false => rfl
      | true => exact absurd (testBit_lt_of_lt_two_pow h hb) hj
    simp [mem_occSet, hj, this]

theorem occSet_inj {M a b : ℕ} (ha : a < 2 ^ M) (hb : b < 2 ^ M)
    (h : occSet M a = occSet M b) : a = b := by
  rw [← sum_occSet_two_pow ha, ← sum_occSet_two_pow hb, h]

/-- Python's det & ~mask on a non-negative integer clears the bits of mask;
this encoding with xor and land agrees bitwise with Nat.ldiff. -/
def andNot (det mask : ℕ) : ℕ := det ^^^ (det &&& mask)

theorem testBit_andNot (det mask k : ℕ) :
    (andNot det mask).testBit k = (det.testBit k && !(mask.testBit k)) := by
  rw [andNot, Nat.testBit_xor, Nat.testBit_land]
  cases det.testBit k <;> cases mask.testBit k <;> rfl

/-! Bit-string encoding of an occupation tuple (PostSCF.tuple2bitstring).
The Python builds a list of characters of length max(bit_tuple)+1, writes
a one at every index of the tuple, reverses it and reads it as an unsigned
binary integer (BitArray(bin=string).uint), most significant bit first. -/

/-- Unsigned integer value of a binary character string, most significant
character first (BitArray(bin=s).uint). -/
def uintOfBin (s : List Char) : ℕ :=
  s.foldl (fun a c => 2 * a + (if c = '1' then 1 else 0)) 0

/-- Character list built by tuple2bitstring: start from max(t)+1 zero
characters, set position i to one for every i in t, then reverse. -/
def bitstringChars (t : List ℕ) : List Char :=
  (t.foldl (fun s i => s.set i '1') (List.replicate (t.foldr max 0 + 1) '0')).reverse

/-- From a tuple of occupied orbitals, return the bitstring representation;
on the empty tuple the Python code fails (max of an empty sequence), which
is modelled as none. -/
def tuple2bitstring : List ℕ → Option (List Char)
  | [] => none
  | i :: t => some (bitstringChars (i :: t))

theorem le_foldr_max {t : List ℕ} {x : ℕ} (h : x ∈ t) : x ≤ t.foldr max 0 := by
  induction t with
  | nil => cases h
  | cons a t ih =>
    rcases List.mem_cons.mp h with rfl | h
    · exact le_max_left _ _
    · exact le_trans (ih h) (le_max_right _ _)

theorem foldl_set_length (t : List ℕ) (l : List Char) :
    (t.foldl (fun s i => s.set i '1') l).length = l.length := by
  induction t generalizing l with
  | nil => rfl
  | cons a t ih => rw [List.foldl_cons, ih, List.length_set]

theorem foldl_set_getElem? (t : List ℕ) (l : List Char) (j : ℕ) :
    (t.foldl (fun s i => s.set i '1') l)[j]? =
      if j ∈ t ∧ j < l.length then some '1' else l[j]? := by
  induction t generalizing l with
  | nil => simp
  | cons a t ih =>
    rw [List.foldl_cons, ih, List.length_set, List.getElem?_set]
    by_cases hjt : j ∈ t
    · by_cases hjl : j < l.length
      · simp [hjt, hjl]
      · have h1 : ¬(j ∈ t ∧ j < l.length) := fun h => hjl h.2
        have h2 : ¬(j ∈ a :: t ∧ j < l.length) := fun h => hjl h.2
        rw [if_neg h1, if_neg h2]
        by_cases haj : a = j
        · have h3 : ¬a < l.length := by rw [haj]; exact hjl
          rw [if_pos haj, if_neg h3, List.getElem?_eq_none (le_of_not_lt hjl)]
        · rw [if_neg haj]
    · have h1 : ¬(j ∈ t ∧ j < l.length) := fun h => hjt h.1
      have hmem : (j ∈ a :: t) ↔ a = j := by
        rw [List.mem_cons]
        constructor
        · rintro (rfl | h)
          · rfl
          · exact absurd h hjt
        · rintro rfl; exact Or.inl rfl
      by_cases haj : a = j
      · by_cases hjl : j < l.length
        · have h3 : a < l.length := by rw [haj]; exact hjl
          rw [if_neg h1, if_pos haj, if_pos h3, if_pos ⟨hmem.mpr haj, hjl⟩]
        · have h3 : ¬a < l.length := by rw [haj]; exact hjl
          have h2 : ¬(j ∈ a :: t ∧ j < l.length) := fun h => hjl h.2
          rw [if_neg h1, if_pos haj, if_neg h3, if_neg h2,
            List.getElem?_eq_none (le_of_not_lt hjl)]
      · have h2 : ¬(j ∈ a :: t ∧ j < l.length) := fun h => haj (hmem.mp h.1)
        rw [if_neg h1, if_neg haj, if_neg h2]

theorem foldr_binval (l : List Char) :
    l.foldr (fun c a => 2 * a + (if c = '1' then 1 else 0)) 0 =
      ∑ j ∈ Finset.range l.length, (if l[j]? = some '1' then 2 ^ j else 0) := by
  induction l with
  | nil => simp
  | cons c l ih =>
    rw [List.foldr_cons, ih, List.length_cons, Finset.sum_range_succ']
    simp only [List.getElem?_cons_succ, List.getElem?_cons_zero, Option.some_inj, pow_zero]
    have hdouble : (∑ j ∈ Finset.range l.length, (if l[j]? = some '1' then 2 ^ (j + 1) else 0)) =
        2 * ∑ j ∈ Finset.range l.length, (if l[j]? = some '1' then 2 ^ j else 0) := by
      rw [Finset.mul_sum]
      exact Finset.sum_congr rfl (fun j _ => by split <;> ring)
    rw [hdouble]

theorem uintOfBin_bitstringChars (t : List ℕ) :
    uintOfBin (bitstringChars t) = ∑ i ∈ t.toFinset, 2 ^ i := by
  unfold uintOfBin bitstringChars
  rw [List.foldl_reverse, foldr_binval]
  have hlen : (t.foldl (fun s i => s.set i '1') (List.replicate (t.foldr max 0 + 1) '0')).length
      = t.foldr max 0 + 1 := by rw [foldl_set_length, List.length_replicate]
  rw [hlen]
  have hval : ∀ j ∈ Finset.range (t.foldr max 0 + 1),
      (if (t.foldl (fun s i => s.set i '1') (List.replicate (t.foldr max 0 + 1) '0'))[j]? =
          some '1' then 2 ^ j else 0) = if j ∈ t then 2 ^ j else 0 := by
    intro j hj
    rw [Finset.mem_range] at hj
    rw [foldl_set_getElem?, List.length_replicate]
    by_cases hjt : j ∈ t
    · simp [hjt, hj]
    · simp [hjt, List.getElem?_replicate, hj]
  rw [Finset.sum_congr rfl hval, ← Finset.sum_filter]
  have : (Finset.range (t.foldr max 0 + 1)).filter (fun j => j ∈ t) = t.toFinset := by
    ext j
    simp only [Finset.mem_filter, Finset.mem_range, List.mem_toFinset]
    exact ⟨fun h => h.2, fun h => ⟨Nat.lt_succ_of_le (le_foldr_max h), h⟩⟩
  rw [this]

theorem length_bitstringChars (t : List ℕ) :
    (bitstringChars t).length = t.foldr max 0 + 1 := by
  unfold bitstringChars
  rw [List.length_reverse, foldl_set_length, List.length_replicate]

theorem testBit_uintOfBin_bitstringChars (t : List ℕ) (i : ℕ) :
    (uintOfBin (bitstringChars t)).testBit i = true ↔ i ∈ t := by
  rw [uintOfBin_bitstringChars]
  have hsub : t.toFinset ⊆ Finset.range (t.foldr max 0 + 1) := by
    intro x hx
    rw [List.mem_toFinset] at hx
    exact Finset.mem_range.mpr (Nat.lt_succ_of_le (le_foldr_max hx))
  rw [testBit_sum_two_pow hsub i]
  simp

/-! Spin-orbital antisymmetrized two-electron tensor (PostSCF.ao2mo).
double_bar[p,q,r,s] = single_bar[p//2,r//2,q//2,s//2]*(p%2==r%2)*(q%2==s%2)
                    - single_bar[p//2,s//2,q//2,r//2]*(p%2==s%2)*(q%2==r%2),
with the Python booleans entering as factors 0 or 1. -/

/-- Antisymmetrized spin-orbital tensor assembled from the (real parts of
the) MO-basis spatial integrals, as in PostSCF.ao2mo. -/
def double_bar (single_bar : ℕ → ℕ → ℕ → ℕ → ℝ) (p q r s : ℕ) : ℝ :=
  single_bar (p / 2) (r / 2) (q / 2) (s / 2) *
      (if p % 2 = r % 2 then 1 else 0) * (if q % 2 = s % 2 then 1 else 0) -
    single_bar (p / 2) (s / 2) (q / 2) (r / 2) *
      (if p % 2 = s % 2 then 1 else 0) * (if q % 2 = r % 2 then 1 else 0)

/-! Excitation analyzer.  The functions get_excitation and common_index are
imported by postscf.py from mmd.slater, whose source is not available. -/

/-- Indices of the set bits of n, in ascending order (every set bit of n
has index below n, so filtering range n is exhaustive). -/
def bitIndices (n : ℕ) : List ℕ := (List.range n).filter (fun i => n.testBit i)

/-- Excitation descriptor relating two determinants: degree, holes and
particles in ascending order, and a fermionic phase. -/
structure Excitation where
  degree : ℕ
  holes : List ℕ
  particles : List ℕ
  phase : ℤ
deriving Repr, DecidableEq

/-- Number of orbitals of det occupied strictly between positions a and b. -/
def crossings (det a b : ℕ) : ℕ :=
  ((Finset.Ioo (min a b) (max a b)).filter (fun k => det.testBit k)).card

/-- Modelled from the spec: get_excitation (mmd.slater, source not in the
repository snapshot).  diff = xor of the two determinants; degree =
popcount(diff)/2; holes = bits occupied in det1 but not det2, ascending;
particles = bits occupied in det2 but not det1, ascending; phase =
(-1)^(total crossing count), where each hole/particle pair contributes the
number of occupied orbitals of det1 strictly between the two positions. -/
def get_excitation (det1 det2 : ℕ) : Excitation :=
  let diff := det1 ^^^ det2
  let holes := bitIndices (andNot det1 det2)
  let particles := bitIndices (andNot det2 det1)
  { degree := popcount diff / 2
    holes := holes
    particles := particles
    phase := (-1 : ℤ) ^
      ((holes.zip particles).foldl (fun acc hp => acc + crossings det1 hp.1 hp.2) 0) }

/-- Modelled from the spec: common_index (mmd.slater, source not in the
repository snapshot) returns the orbitals occupied in both determinants,
in ascending order. -/
def common_index (det1 det2 : ℕ) : List ℕ := bitIndices (det1 &&& det2)

/-- Slater-Condon matrix element <det1|H|det2> (PostSCF.hamiltonian_matrix_element),
dispatching on the excitation degree.  Hp is the one-electron spin-orbital
operator and db the antisymmetrized two-electron tensor. -/
def hamiltonian_matrix_element (Hp : ℕ → ℕ → ℝ) (db : ℕ → ℕ → ℕ → ℕ → ℝ)
    (det1 det2 : ℕ) : ℝ :=
  let e := get_excitation det1 det2
  if 2 < e.degree then 0
  else if e.degree = 2 then
    (e.phase : ℝ) * db (e.holes.getD 0 0) (e.holes.getD 1 0)
      (e.particles.getD 0 0) (e.particles.getD 1 0)
  else if e.degree = 1 then
    let m := e.holes.getD 0 0
    let p := e.particles.getD 0 0
    (e.phase : ℝ) *
      ((common_index det1 det2).foldl (fun tmp n => tmp + db m n p n) (Hp m p))
  else
    (e.phase : ℝ) *
      ((common_index det1 det2).foldl
        (fun tmp m =>
          (common_index det1 det2).foldl (fun t2 n => t2 + 0.5 * db m n m n)
            (tmp + Hp m m)) 0)

/-- Full CI Hamiltonian (PostSCF.build_full_hamiltonian): starting from the
zero matrix, for each row idx and each jdx ≤ idx, the element for the pair
(det_idx, det_jdx) is computed once and written to both (idx,jdx) and
(jdx,idx). -/
def build_full_hamiltonian (Hp : ℕ → ℕ → ℝ) (db : ℕ → ℕ → ℕ → ℕ → ℝ)
    (det_list : List ℕ) : ℕ → ℕ → ℝ :=
  (List.range det_list.length).foldl
    (fun H idx =>
      (List.range (idx + 1)).foldl
        (fun H2 jdx =>
          let v := hamiltonian_matrix_element Hp db (det_list.getD idx 0) (det_list.getD jdx 0)
          fun a b =>
            if a = jdx ∧ b = idx then v
            else if a = idx ∧ b = jdx then v
            else H2 a b)
        H)
    (fun _ _ => 0)

theorem foldl_write_pair (g : ℕ → ℝ) (idx : ℕ) :
    ∀ (k : ℕ) (H : ℕ → ℕ → ℝ),
      (List.range k).foldl
        (fun H2 jdx => fun a b =>
          if a = jdx ∧ b = idx then g jdx
          else if a = idx ∧ b = jdx then g jdx
          else H2 a b) H =
      fun a b =>
        if a = idx ∧ b < k then g b
        else if b = idx ∧ a < k then g a
        else H a b := by
  intro k
  induction k with
  | zero =>
    intro H
    funext a b
    simp
  | succ k ih =>
    intro H
    rw [List.range_succ, List.foldl_append, ih, List.foldl_cons, List.foldl_nil]
    funext a b
    simp only []
    split_ifs <;> first | rfl | (congr 1; omega)

/-- Closed form of the assembled Hamiltonian: for a < n the lower triangle
(b ≤ a) holds the element for (det_a, det_b), the strict upper triangle
mirrors it, and cells outside the n × n block keep their zero value. -/
theorem build_full_hamiltonian_eq (Hp : ℕ → ℕ → ℝ) (db : ℕ → ℕ → ℕ → ℕ → ℝ)
    (det_list : List ℕ) :
    build_full_hamiltonian Hp db det_list = fun a b =>
      if a < det_list.length ∧ b ≤ a then
        hamiltonian_matrix_element Hp db (det_list.getD a 0) (det_list.getD b 0)
      else if b < det_list.length ∧ a ≤ b then
        hamiltonian_matrix_element Hp db (det_list.getD b 0) (det_list.getD a 0)
      else 0 := by
  unfold build_full_hamiltonian
  generalize det_list.length = n
  induction n with
  | zero =>
    funext a b
    simp
  | succ n ih =>
    rw [List.range_succ, List.foldl_append, ih, List.foldl_cons, List.foldl_nil,
      foldl_write_pair (fun jdx => hamiltonian_matrix_element Hp db
        (det_list.getD n 0) (det_list.getD jdx 0)) n (n + 1)]
    funext a b
    split_ifs <;> first | rfl | (congr <;> omega)

/-! Determinant space generators (PostSCF.residues, PostSCF.add_particles,
PostSCF.CISD, PostSCF.FCI).  Python's det & ~mask on non-negative integers
clears the bits of mask (the andNot encoding); bin(x).count of ones is popcount;
the comparison with nonzero - 2 is carried out in ℤ since Python
subtraction does not truncate at zero. -/

/-- All ways to remove two electrons from a determinant: for j < i < nOrb,
keep det & ~((1 << i) ^ (1 << j)) whenever that clears exactly two set
bits. -/
def residues (nOrb det : ℕ) : List ℕ :=
  (List.range nOrb).flatMap (fun i =>
    (List.range i).filterMap (fun j =>
      if (popcount (andNot det ((1 <<< i) ^^^ (1 <<< j))) : ℤ) = (popcount det : ℤ) - 2 then
        some (andNot det ((1 <<< i) ^^^ (1 <<< j)))
      else none))

/-- All ways to add two electrons back to each residue (unoccupied
positions j < i < nOrb), deduplicated as by Python's list(set(...)). -/
def add_particles (nOrb : ℕ) (residue_list : List ℕ) : List ℕ :=
  (residue_list.flatMap (fun residue =>
    (List.range nOrb).flatMap (fun i =>
      if residue.testBit i then []
      else
        (List.range i).filterMap (fun j =>
          if (residue ||| (1 <<< i)).testBit j then none
          else some ((residue ||| (1 <<< i)) ||| (1 <<< j)))))).dedup

/-- CISD determinant list: all single and double excitations (plus the
reference) of the reference determinant 2^nEle - 1. -/
def cisd_det_list (nEle nOrb : ℕ) : List ℕ :=
  add_particles nOrb (residues nOrb (2 ^ nEle - 1))

/-- CISD driver: abort with an error when more than 5000 determinants,
otherwise build the Hamiltonian. -/
def CISD_run (nEle nOrb : ℕ) (Hp : ℕ → ℕ → ℝ) (db : ℕ → ℕ → ℕ → ℕ → ℝ) :
    Except String (ℕ → ℕ → ℝ) :=
  let det_list := cisd_det_list nEle nOrb
  if 5000 < det_list.length then Except.error "CI too expensive. Quitting."
  else Except.ok (build_full_hamiltonian Hp db det_list)

/-- Lexicographic n-element combinations of a list, in itertools order. -/
def combinations : List ℕ → ℕ → List (List ℕ)
  | _, 0 => [[]]
  | [], _ + 1 => []
  | x :: xs, n + 1 => (combinations xs n).map (fun c => x :: c) ++ combinations xs (n + 1)

/-- FCI determinant list: one determinant per nEle-combination of the nOrb
spin orbitals, encoded through tuple2bitstring; none if any encoding fails
(which happens only for the empty tuple, i.e. nEle = 0). -/
def FCI_detlist (nEle nOrb : ℕ) : Option (List ℕ) :=
  (combinations (List.range nOrb) nEle).mapM
    (fun occlist => (tuple2bitstring occlist).map uintOfBin)

/-- FCI driver: abort before generating determinants when C(nOrb,nEle)
exceeds 5000, otherwise build the Hamiltonian. -/
def FCI_run (nEle nOrb : ℕ) (Hp : ℕ → ℕ → ℝ) (db : ℕ → ℕ → ℕ → ℕ → ℝ) :
    Except String (ℕ → ℕ → ℝ) :=
  if 5000 < Nat.choose nOrb nEle then Except.error "FCI too expensive. Quitting."
  else
    match FCI_detlist nEle nOrb with
    | none => Except.error "max() arg is an empty sequence"
    | some det_list => Except.ok (build_full_hamiltonian Hp db det_list)

theorem testBit_pair_mask {i j k : ℕ} (hij : j ≠ i) :
    ((1 <<< i) ^^^ (1 <<< j)).testBit k = (decide (k = i) || decide (k = j)) := by
  rw [Nat.one_shiftLeft, Nat.one_shiftLeft, Nat.testBit_xor,
    Nat.testBit_two_pow, Nat.testBit_two_pow]
  have hij2 : ¬i = j := fun h => hij h.symm
  by_cases h1 : k = i
  · subst h1
    simp [hij, hij2]
  · by_cases h2 : k = j
    · subst h2
      simp [hij, hij2]
    · have h1b : ¬i = k := fun h => h1 h.symm
      have h2b : ¬j = k := fun h => h2 h.symm
      simp [h1, h2, h1b, h2b]

theorem occSet_andNot_pair {M det i j : ℕ} (hij : j ≠ i) :
    occSet M (andNot det ((1 <<< i) ^^^ (1 <<< j))) = ((occSet M det).erase i).erase j := by
  ext k
  rw [Finset.mem_erase, Finset.mem_erase, mem_occSet, mem_occSet,
    testBit_andNot, testBit_pair_mask hij]
  constructor
  · rintro ⟨hkM, hk⟩
    rw [Bool.and_eq_true, Bool.not_eq_true', Bool.or_eq_false_iff] at hk
    refine ⟨?_, ?_, hkM, hk.1⟩
    · simpa using hk.2.2
    · simpa using hk.2.1
  · rintro ⟨hkj, hki, hkM, hdet⟩
    refine ⟨hkM, ?_⟩
    rw [Bool.and_eq_true, Bool.not_eq_true', Bool.or_eq_false_iff]
    exact ⟨hdet, by simpa using hki, by simpa using hkj⟩

theorem occSet_lor_pow {M n c : ℕ} (hc : c < M) :
    occSet M (n ||| (1 <<< c)) = insert c (occSet M n) := by
  ext k
  simp only [Finset.mem_insert, mem_occSet, Nat.testBit_lor, Nat.one_shiftLeft,
    Nat.testBit_two_pow, Bool.or_eq_true, decide_eq_true_eq]
  constructor
  · rintro ⟨hkM, h | h⟩
    · exact Or.inr ⟨hkM, h⟩
    · exact Or.inl h.symm
  · rintro (rfl | ⟨hkM, h⟩)
    · exact ⟨hc, Or.inr rfl⟩
    · exact ⟨hkM, Or.inl h⟩

theorem residue_cond_iff {det i j : ℕ} (hij : j < i) :
    ((popcount (andNot det ((1 <<< i) ^^^ (1 <<< j))) : ℤ) = (popcount det : ℤ) - 2) ↔
      (det.testBit i = true ∧ det.testBit j = true) := by
  set M := det + i + 1 with hM
  have hiM : i < M := by omega
  have hjM : j < M := by omega
  have hdet : det < 2 ^ M :=
    lt_two_pow_of_testBit_lt (fun b hb => by have := testBit_lt_self hb; omega)
  have hld : andNot det ((1 <<< i) ^^^ (1 <<< j)) < 2 ^ M := by
    apply lt_two_pow_of_testBit_lt
    intro b hb
    rw [testBit_andNot, Bool.and_eq_true] at hb
    have := testBit_lt_self hb.1
    omega
  rw [popcount_eq_card_occSet hdet, popcount_eq_card_occSet hld,
    occSet_andNot_pair (Nat.ne_of_lt hij)]
  set S := occSet M det with hS
  by_cases hi : det.testBit i = true <;> by_cases hj : det.testBit j = true
  · have hiS : i ∈ S := mem_occSet.mpr ⟨hiM, hi⟩
    have hjS : j ∈ S.erase i := Finset.mem_erase.mpr ⟨Nat.ne_of_lt hij, mem_occSet.mpr ⟨hjM, hj⟩⟩
    have h1 : (S.erase i).card = S.card - 1 := Finset.card_erase_of_mem hiS
    have h2 : ((S.erase i).erase j).card = (S.erase i).card - 1 := Finset.card_erase_of_mem hjS
    have h3 : 1 ≤ S.card := Finset.card_pos.mpr ⟨i, hiS⟩
    have h4 : 1 ≤ (S.erase i).card := Finset.card_pos.mpr ⟨j, hjS⟩
    constructor
    · intro _; exact ⟨hi, hj⟩
    · intro _; rw [h2, h1]; omega
  · have hjS : j ∉ S.erase i := by
      rw [Finset.mem_erase, mem_occSet]
      rintro ⟨-, -, h⟩
      exact hj h
    have hiS : i ∈ S := mem_occSet.mpr ⟨hiM, hi⟩
    have h1 : (S.erase i).card = S.card - 1 := Finset.card_erase_of_mem hiS
    have h2 : ((S.erase i).erase j) = S.erase i := Finset.erase_eq_of_not_mem hjS
    have h3 : 1 ≤ S.card := Finset.card_pos.mpr ⟨i, hiS⟩
    constructor
    · intro h; rw [h2, h1] at h; exfalso; omega
    · rintro ⟨-, hj2⟩; exact absurd hj2 hj
  · have hiS : i ∉ S := by
      rw [mem_occSet]
      rintro ⟨-, h⟩
      exact hi h
    have h1 : S.erase i = S := Finset.erase_eq_of_not_mem hiS
    have hjS : j ∈ S := mem_occSet.mpr ⟨hjM, hj⟩
    have h2 : (S.erase j).card = S.card - 1 := Finset.card_erase_of_mem hjS
    have h3 : 1 ≤ S.card := Finset.card_pos.mpr ⟨j, hjS⟩
    constructor
    · intro h; rw [h1, h2] at h; exfalso; omega
    · rintro ⟨hi2, -⟩; exact absurd hi2 hi
  · have hiS : i ∉ S := by
      rw [mem_occSet]; rintro ⟨-, h⟩; exact hi h
    have hjS : j ∉ S := by
      rw [mem_occSet]; rintro ⟨-, h⟩; exact hj h
    have h1 : S.erase i = S := Finset.erase_eq_of_not_mem hiS
    have h2 : S.erase j = S := Finset.erase_eq_of_not_mem hjS
    constructor
    · intro h; rw [h1, h2] at h; exfalso; omega
    · rintro ⟨hi2, -⟩; exact absurd hi2 hi

theorem mem_residues {nOrb det r : ℕ} :
    r ∈ residues nOrb det ↔
      ∃ i j, j < i ∧ i < nOrb ∧ det.testBit i = true ∧ det.testBit j = true ∧
        r = andNot det ((1 <<< i) ^^^ (1 <<< j)) := by
  unfold residues
  rw [List.mem_flatMap]
  constructor
  · rintro ⟨i, hi, hr⟩
    rw [List.mem_range] at hi
    rw [List.mem_filterMap] at hr
    obtain ⟨j, hj, hjr⟩ := hr
    rw [List.mem_range] at hj
    by_cases hc : (popcount (andNot det ((1 <<< i) ^^^ (1 <<< j))) : ℤ) = (popcount det : ℤ) - 2
    · rw [if_pos hc] at hjr
      obtain ⟨hbi, hbj⟩ := (residue_cond_iff hj).mp hc
      exact ⟨i, j, hj, hi, hbi, hbj, (Option.some_inj.mp hjr).symm⟩
    · rw [if_neg hc] at hjr
      cases hjr
  · rintro ⟨i, j, hj, hi, hbi, hbj, rfl⟩
    refine ⟨i, List.mem_range.mpr hi, ?_⟩
    rw [List.mem_filterMap]
    exact ⟨j, List.mem_range.mpr hj, by rw [if_pos ((residue_cond_iff hj).mpr ⟨hbi, hbj⟩)]⟩

theorem mem_add_particles {nOrb : ℕ} {rl : List ℕ} {d : ℕ} :
    d ∈ add_particles nOrb rl ↔
      ∃ r ∈ rl, ∃ i j, j < i ∧ i < nOrb ∧ r.testBit i = false ∧
        (r ||| (1 <<< i)).testBit j = false ∧ d = (r ||| (1 <<< i)) ||| (1 <<< j) := by
  unfold add_particles
  rw [List.mem_dedup, List.mem_flatMap]
  constructor
  · rintro ⟨r, hr, hd⟩
    rw [List.mem_flatMap] at hd
    obtain ⟨i, hi, hd⟩ := hd
    rw [List.mem_range] at hi
    by_cases hocc : r.testBit i
    · rw [if_pos hocc] at hd
      cases hd
    · rw [if_neg hocc] at hd
      rw [List.mem_filterMap] at hd
      obtain ⟨j, hj, hjd⟩ := hd
      rw [List.mem_range] at hj
      by_cases hocc2 : (r ||| (1 <<< i)).testBit j
      · rw [if_pos hocc2] at hjd
        cases hjd
      · rw [if_neg hocc2] at hjd
        exact ⟨r, hr, i, j, hj, hi, Bool.eq_false_iff.mpr hocc,
          Bool.eq_false_iff.mpr hocc2, (Option.some_inj.mp hjd).symm⟩
  · rintro ⟨r, hr, i, j, hji, hi, hbi, hbj, rfl⟩
    refine ⟨r, hr, ?_⟩
    rw [List.mem_flatMap]
    refine ⟨i, List.mem_range.mpr hi, ?_⟩
    rw [if_neg (by simp [hbi])]
    rw [List.mem_filterMap]
    exact ⟨j, List.mem_range.mpr hji, by rw [if_neg (by simp [hbj])]⟩

theorem popcount_of_mem_residues {nOrb det r : ℕ} (h : r ∈ residues nOrb det) :
    (popcount r : ℤ) = (popcount det : ℤ) - 2 := by
  obtain ⟨i, j, hj, hi, hbi, hbj, rfl⟩ := mem_residues.mp h
  exact (residue_cond_iff hj).mpr ⟨hbi, hbj⟩

theorem testBit_of_mem_add_particles {nOrb : ℕ} {rl : List ℕ} {d : ℕ}
    (h : d ∈ add_particles nOrb rl) :
    ∃ r ∈ rl, popcount d = popcount r + 2 ∧
      ∀ b, d.testBit b = true → (r.testBit b = true ∨ b < nOrb) := by
  obtain ⟨r, hr, i, j, hji, hi, hbi, hbj, rfl⟩ := mem_add_particles.mp h
  refine ⟨r, hr, ?_, ?_⟩
  · set M := nOrb + r + 1 with hM
    have hiM : i < M := by omega
    have hjM : j < M := by omega
    have hrM : r < 2 ^ M :=
      lt_two_pow_of_testBit_lt (fun b hb => by have := testBit_lt_self hb; omega)
    have hd1 : r ||| (1 <<< i) < 2 ^ M := by
      apply lt_two_pow_of_testBit_lt
      intro b hb
      rw [Nat.testBit_lor, Nat.one_shiftLeft, Nat.testBit_two_pow, Bool.or_eq_true] at hb
      rcases hb with hb | hb
      · have := testBit_lt_self hb; omega
      · have : i = b := by simpa using hb
        omega
    have hd2 : (r ||| (1 <<< i)) ||| (1 <<< j) < 2 ^ M := by
      apply lt_two_pow_of_testBit_lt
      intro b hb
      rw [Nat.testBit_lor, Bool.or_eq_true] at hb
      rcases hb with hb | hb
      · exact testBit_lt_of_lt_two_pow hd1 hb
      · rw [Nat.one_shiftLeft, Nat.testBit_two_pow] at hb
        have : j = b := by simpa using hb
        omega
    rw [popcount_eq_card_occSet hd2, popcount_eq_card_occSet hrM,
      occSet_lor_pow hjM, occSet_lor_pow hiM]
    have hrj : r.testBit j = false := by
      rw [Nat.testBit_lor, Bool.or_eq_false_iff] at hbj
      exact hbj.1
    have hji2 : j ≠ i := Nat.ne_of_lt hji
    have h1 : i ∉ occSet M r := by
      rw [mem_occSet]
      rintro ⟨-, hb⟩
      rw [hbi] at hb
      exact Bool.false_ne_true hb
    have h2 : j ∉ insert i (occSet M r) := by
      rw [Finset.mem_insert, mem_occSet]
      rintro (rfl | ⟨-, hb⟩)
      · exact hji2 rfl
      · rw [hrj] at hb
        exact Bool.false_ne_true hb
    rw [Finset.card_insert_of_not_mem h2, Finset.card_insert_of_not_mem h1]
  · intro b hb
    rw [Nat.testBit_lor, Nat.testBit_lor, Bool.or_eq_true, Bool.or_eq_true] at hb
    rcases hb with (hb | hb) | hb
    · exact Or.inl hb
    · rw [Nat.one_shiftLeft, Nat.testBit_two_pow] at hb
      have : i = b := by simpa using hb
      omega
    · rw [Nat.one_shiftLeft, Nat.testBit_two_pow] at hb
      have : j = b := by simpa using hb
      omega

theorem popcount_two_pow_sub_one (N : ℕ) : popcount (2 ^ N - 1) = N := by
  have h : 2 ^ N - 1 < 2 ^ N := by
    have : 1 ≤ 2 ^ N := Nat.one_le_two_pow
    omega
  rw [popcount_eq_card_occSet h]
  have : occSet N (2 ^ N - 1) = Finset.range N := by
    ext k
    rw [mem_occSet, Finset.mem_range, Nat.testBit_two_pow_sub_one]
    constructor
    · rintro ⟨hk, -⟩; exact hk
    · intro hk; exact ⟨hk, by simpa using hk⟩
  rw [this, Finset.card_range]

theorem combinations_length : ∀ (l : List ℕ) (n : ℕ),
    (combinations l n).length = l.length.choose n := by
  intro l
  induction l with
  | nil =>
    intro n
    cases n with
    | zero => rfl
    | succ n => rfl
  | cons x xs ih =>
    intro n
    cases n with
    | zero => rfl
    | succ n =>
      rw [combinations, List.length_append, List.length_map, ih, ih,
        List.length_cons, Nat.choose_succ_succ]

theorem mem_combinations : ∀ {l : List ℕ} {n : ℕ} {c : List ℕ},
    c ∈ combinations l n ↔ c.Sublist l ∧ c.length = n := by
  intro l
  induction l with
  | nil =>
    intro n c
    cases n with
    | zero =>
      simp only [combinations, List.mem_singleton, List.sublist_nil, List.length_eq_zero]
      constructor
      · rintro rfl; exact ⟨rfl, rfl⟩
      · rintro ⟨rfl, -⟩; rfl
    | succ n =>
      simp only [combinations, List.not_mem_nil, false_iff, not_and, List.sublist_nil]
      rintro rfl
      simp
  | cons x xs ih =>
    intro n c
    cases n with
    | zero =>
      simp only [combinations, List.mem_singleton, List.length_eq_zero]
      constructor
      · rintro rfl; exact ⟨List.nil_sublist _, rfl⟩
      · rintro ⟨-, rfl⟩; rfl
    | succ n =>
      rw [combinations, List.mem_append, List.mem_map]
      constructor
      · rintro (⟨c2, hc2, rfl⟩ | hc)
        · obtain ⟨hsub, hlen⟩ := ih.mp hc2
          exact ⟨List.cons_sublist_cons.mpr hsub, by rw [List.length_cons, hlen]⟩
        · obtain ⟨hsub, hlen⟩ := ih.mp hc
          exact ⟨hsub.cons x, hlen⟩
      · rintro ⟨hsub, hlen⟩
        rcases List.sublist_cons_iff.mp hsub with hsub | ⟨r, rfl, hr⟩
        · exact Or.inr (ih.mpr ⟨hsub, hlen⟩)
        · exact Or.inl ⟨r, ih.mpr ⟨hr, by simpa using hlen⟩, rfl⟩

theorem combinations_nodup : ∀ (l : List ℕ) (n : ℕ), l.Nodup → (combinations l n).Nodup := by
  intro l
  induction l with
  | nil =>
    intro n _
    cases n with
    | zero => simp [combinations]
    | succ n => simp [combinations]
  | cons x xs ih =>
    intro n hnd
    have hx : x ∉ xs := (List.nodup_cons.mp hnd).1
    have hxs : xs.Nodup := (List.nodup_cons.mp hnd).2
    cases n with
    | zero => simp [combinations]
    | succ n =>
      rw [combinations]
      apply List.Nodup.append
      · exact (ih n hxs).map List.cons_injective
      · exact ih (n + 1) hxs
      · intro c hc1 hc2
        rw [List.mem_map] at hc1
        obtain ⟨c2, -, rfl⟩ := hc1
        obtain ⟨hsub, -⟩ := mem_combinations.mp hc2
        exact hx (hsub.subset (List.mem_cons_self x c2))

theorem mapM_option_eq_map {α β : Type} (f : α → Option β) (g : α → β) :
    ∀ (l : List α), (∀ a ∈ l, f a = some (g a)) → l.mapM f = some (l.map g) := by
  intro l
  induction l with
  | nil => intro _; rfl
  | cons a l ih =>
    intro h
    rw [List.mapM_cons, h a (List.mem_cons_self a l), ih (fun b hb => h b (List.mem_cons_of_mem a hb))]
    rfl

theorem FCI_detlist_eq {N M : ℕ} (hN : 0 < N) :
    FCI_detlist N M =
      some ((combinations (List.range M) N).map (fun c => uintOfBin (bitstringChars c))) := by
  unfold FCI_detlist
  apply mapM_option_eq_map
  intro c hc
  obtain ⟨-, hlen⟩ := mem_combinations.mp hc
  cases c with
  | nil => rw [List.length_nil] at hlen; omega
  | cons i t => rfl

theorem fci_value_lt {M : ℕ} {c : List ℕ} (hc : c.Sublist (List.range M)) :
    uintOfBin (bitstringChars c) < 2 ^ M := by
  apply lt_two_pow_of_testBit_lt
  intro b hb
  exact List.mem_range.mp (hc.subset ((testBit_uintOfBin_bitstringChars c b).mp hb))

theorem fci_occSet {M : ℕ} {c : List ℕ} (hc : c.Sublist (List.range M)) :
    occSet M (uintOfBin (bitstringChars c)) = c.toFinset := by
  ext k
  rw [mem_occSet, List.mem_toFinset]
  constructor
  · rintro ⟨-, hb⟩
    exact (testBit_uintOfBin_bitstringChars c k).mp hb
  · intro hk
    exact ⟨List.mem_range.mp (hc.subset hk),
      (testBit_uintOfBin_bitstringChars c k).mpr hk⟩

theorem fci_popcount {M N : ℕ} {c : List ℕ} (hc : c ∈ combinations (List.range M) N) :
    popcount (uintOfBin (bitstringChars c)) = N := by
  obtain ⟨hsub, hlen⟩ := mem_combinations.mp hc
  have hnodup : c.Nodup := (List.nodup_range M).sublist hsub
  rw [popcount_eq_card_occSet (fci_value_lt hsub), fci_occSet hsub,
    List.toFinset_card_of_nodup hnodup, hlen]

theorem fci_value_inj {M N : ℕ} {c1 c2 : List ℕ} (h1 : c1 ∈ combinations (List.range M) N)
    (h2 : c2 ∈ combinations (List.range M) N)
    (he : uintOfBin (bitstringChars c1) = uintOfBin (bitstringChars c2)) : c1 = c2 := by
  obtain ⟨hsub1, -⟩ := mem_combinations.mp h1
  obtain ⟨hsub2, -⟩ := mem_combinations.mp h2
  have hn1 : c1.Nodup := (List.nodup_range M).sublist hsub1
  have hn2 : c2.Nodup := (List.nodup_range M).sublist hsub2
  have hs1 : c1.Sorted (· < ·) := (List.sorted_lt_range M).sublist hsub1
  have hs2 : c2.Sorted (· < ·) := (List.sorted_lt_range M).sublist hsub2
  have hts : c1.toFinset = c2.toFinset := by
    rw [← fci_occSet hsub1, ← fci_occSet hsub2, he]
  exact List.eq_of_perm_of_sorted (List.perm_of_nodup_nodup_toFinset_eq hn1 hn2 hts) hs1 hs2

theorem fci_complete {M N d : ℕ} (hd : d < 2 ^ M) (hpop : popcount d = N) :
    ∃ c ∈ combinations (List.range M) N, uintOfBin (bitstringChars c) = d := by
  have hnodup : ((List.range M).filter (fun i => d.testBit i)).Nodup :=
    (List.nodup_range M).filter _
  have hts : ((List.range M).filter (fun i => d.testBit i)).toFinset = occSet M d := by
    ext k
    simp [List.mem_toFinset, List.mem_filter, List.mem_range, mem_occSet]
  refine ⟨(List.range M).filter (fun i => d.testBit i), ?_, ?_⟩
  · rw [mem_combinations]
    refine ⟨List.filter_sublist _, ?_⟩
    calc ((List.range M).filter (fun i => d.testBit i)).length
        = ((List.range M).filter (fun i => d.testBit i)).toFinset.card :=
          (List.toFinset_card_of_nodup hnodup).symm
      _ = (occSet M d).card := by rw [hts]
      _ = popcount d := (popcount_eq_card_occSet hd).symm
      _ = N := hpop
  · rw [uintOfBin_bitstringChars, hts, sum_occSet_two_pow hd]

theorem cisd_member_popcount {nOrb ref d : ℕ} (h : d ∈ add_particles nOrb (residues nOrb ref)) :
    popcount d = popcount ref := by
  obtain ⟨r, hr, hpop, -⟩ := testBit_of_mem_add_particles h
  have h2 := popcount_of_mem_residues hr
  omega

theorem cisd_member_lt_two_pow {M ref d : ℕ} (href : ref < 2 ^ M)
    (h : d ∈ add_particles M (residues M ref)) : d < 2 ^ M := by
  obtain ⟨r, hr, -, hbits⟩ := testBit_of_mem_add_particles h
  obtain ⟨i, j, hji, hiM, -, -, rfl⟩ := mem_residues.mp hr
  apply lt_two_pow_of_testBit_lt
  intro b hb
  rcases hbits b hb with hb2 | hb2
  · rw [testBit_andNot, Bool.and_eq_true] at hb2
    exact testBit_lt_of_lt_two_pow href hb2.1
  · exact hb2

/-- C7: every determinant in the list produced by either generation policy
has exactly N bits set: residues removes exactly 2 occupied bits,
add_particles adds exactly 2 unoccupied bits back (so CISD members have
popcount N), and each FCI determinant sets exactly the N chosen bits. -/
theorem claim_C7 : ∀ (N M det r d : ℕ) (L : List ℕ),
    (r ∈ residues M det → (popcount r : ℤ) = (popcount det : ℤ) - 2) ∧
    (d ∈ cisd_det_list N M → popcount d = N) ∧
    (FCI_detlist N M = some L → d ∈ L → popcount d = N) := by
  intro N M det r d L
  refine ⟨popcount_of_mem_residues, ?_, ?_⟩
  · intro h
    unfold cisd_det_list at h
    rw [cisd_member_popcount h, popcount_two_pow_sub_one]
  · intro hL hd
    cases Nat.eq_zero_or_pos N with
    | inl h0 =>
      subst h0
      have hcomb : combinations (List.range M) 0 = [[]] := by
        cases List.range M <;> rfl
      have hnone : FCI_detlist 0 M = none := by
        rw [FCI_detlist, hcomb]
        rfl
      rw [hnone] at hL
      cases hL
    | inr hpos =>
      rw [FCI_detlist_eq hpos] at hL
      have hLe := Option.some_inj.mp hL
      rw [← hLe, List.mem_map] at hd
      obtain ⟨c, hc, rfl⟩ := hd
      exact fci_popcount hc

theorem claim_C7_witness :
    (4 ∈ residues 3 7 ∧ (popcount 4 : ℤ) = (popcount 7 : ℤ) - 2) ∧
    (3 ∈ cisd_det_list 2 3 ∧ popcount 3 = 2) ∧
    (FCI_detlist 2 3 = some [3, 5, 6] ∧ 5 ∈ [3, 5, 6] ∧ popcount 5 = 2) :=
  ⟨⟨by decide, (claim_C7 2 3 7 4 3 [3, 5, 6]).1 (by decide)⟩,
   ⟨by decide, (claim_C7 2 3 7 4 3 [3, 5, 6]).2.1 (by decide)⟩,
   ⟨by decide, by decide, (claim_C7 2 3 7 4 5 [3, 5, 6]).2.2 (by decide) (by decide)⟩⟩

/-- C6: for 0 < N ≤ M ≤ 64 with C(M,N) within the size ceiling, the FCI
generator produces exactly C(M,N) pairwise-distinct determinants, one for
each way of choosing N of the M spin orbitals to occupy. -/
theorem claim_C6 : ∀ (N M : ℕ), 0 < N → N ≤ M → M ≤ 64 → Nat.choose M N ≤ 5000 →
    ∃ L, FCI_detlist N M = some L ∧ L.length = Nat.choose M N ∧ L.Nodup ∧
      ∀ d, d ∈ L ↔ (d < 2 ^ M ∧ popcount d = N) := by
  intro N M hN hNM hM64 hceil
  refine ⟨_, FCI_detlist_eq hN, ?_, ?_, ?_⟩
  · rw [List.length_map, combinations_length, List.length_range]
  · exact List.Nodup.map_on (fun c1 h1 c2 h2 he => fci_value_inj h1 h2 he)
      (combinations_nodup _ N (List.nodup_range M))
  · intro d
    constructor
    · intro hd
      rw [List.mem_map] at hd
      obtain ⟨c, hc, rfl⟩ := hd
      exact ⟨fci_value_lt (mem_combinations.mp hc).1, fci_popcount hc⟩
    · rintro ⟨hlt, hpop⟩
      obtain ⟨c, hc, hval⟩ := fci_complete hlt hpop
      rw [List.mem_map]
      exact ⟨c, hc, hval⟩

theorem claim_C6_witness :
    ∃ L, FCI_detlist 1 2 = some L ∧ L.length = Nat.choose 2 1 ∧ L.Nodup ∧
      ∀ d, d ∈ L ↔ (d < 2 ^ 2 ∧ popcount d = 1) :=
  claim_C6 1 2 (by decide) (by decide) (by decide) (by decide)

theorem filterMap_some_eq_map {α β : Type} (f : α → Option β) (g : α → β) :
    ∀ (l : List α), (∀ a ∈ l, f a = some (g a)) → l.filterMap f = l.map g := by
  intro l
  induction l with
  | nil => intro _; rfl
  | cons a l ih =>
    intro h
    rw [List.filterMap_cons, h a (List.mem_cons_self a l), List.map_cons,
      ih (fun b hb => h b (List.mem_cons_of_mem a hb))]

theorem flatMap_congr {α β : Type} {f g : α → List β} :
    ∀ (l : List α), (∀ a ∈ l, f a = g a) → l.flatMap f = l.flatMap g := by
  intro l
  induction l with
  | nil => intro _; rfl
  | cons a l ih =>
    intro h
    rw [List.flatMap_cons, List.flatMap_cons, h a (List.mem_cons_self a l),
      ih (fun b hb => h b (List.mem_cons_of_mem a hb))]

theorem length_flatMap_eq {α β : Type} (f : α → List β) :
    ∀ (l : List α), (l.flatMap f).length = (l.map (fun a => (f a).length)).sum := by
  intro l
  induction l with
  | nil => rfl
  | cons a l ih =>
    rw [List.flatMap_cons, List.length_append, List.map_cons, List.sum_cons, ih]

theorem residues_three {M : ℕ} (hM : 2 ≤ M) : residues M 3 = [0] := by
  induction M with
  | zero => omega
  | succ m ih =>
    rcases Nat.lt_or_ge m 2 with hm | hm
    · have hm1 : m = 1 := by omega
      subst hm1
      decide
    · have hstep : residues (m + 1) 3 = residues m 3 ++
          (List.range m).filterMap (fun j =>
            if (popcount (andNot 3 ((1 <<< m) ^^^ (1 <<< j))) : ℤ) = (popcount 3 : ℤ) - 2 then
              some (andNot 3 ((1 <<< m) ^^^ (1 <<< j)))
            else none) := by
        unfold residues
        rw [List.range_succ, List.flatMap_append, List.flatMap_cons, List.flatMap_nil,
          List.append_nil]
      have hnil : (List.range m).filterMap (fun j =>
          if (popcount (andNot 3 ((1 <<< m) ^^^ (1 <<< j))) : ℤ) = (popcount 3 : ℤ) - 2 then
            some (andNot 3 ((1 <<< m) ^^^ (1 <<< j)))
          else none) = [] := by
        rw [List.filterMap_eq_nil_iff]
        intro j hj
        rw [List.mem_range] at hj
        rw [if_neg]
        intro hc
        have h3m : (3 : ℕ).testBit m = false := by
          apply Nat.testBit_lt_two_pow
          calc (3 : ℕ) < 4 := by norm_num
            _ = 2 ^ 2 := by norm_num
            _ ≤ 2 ^ m := Nat.pow_le_pow_right (by norm_num) hm
        have hb := ((residue_cond_iff hj).mp hc).1
        rw [h3m] at hb
        exact Bool.false_ne_true hb
      rw [hstep, hnil, List.append_nil, ih hm]

theorem add_particles_zero (M : ℕ) :
    add_particles M [0] =
      ((List.range M).flatMap
        (fun i => (List.range i).map (fun j => (1 <<< i) ||| (1 <<< j)))).dedup := by
  unfold add_particles
  rw [List.flatMap_cons, List.flatMap_nil, List.append_nil]
  congr 1
  apply flatMap_congr
  intro i hi
  rw [if_neg (by simp [Nat.zero_testBit])]
  apply filterMap_some_eq_map
  intro j hj
  rw [List.mem_range] at hj
  simp only [Nat.zero_or]
  rw [if_neg]
  intro hc
  rw [Nat.one_shiftLeft, Nat.testBit_two_pow] at hc
  have : i = j := by simpa using hc
  omega

theorem raw_pairs_nodup (M : ℕ) :
    ((List.range M).flatMap
      (fun i => (List.range i).map (fun j => (1 <<< i) ||| (1 <<< j)))).Nodup := by
  rw [List.nodup_flatMap]
  constructor
  · intro i hi
    apply List.Nodup.map_on ?_ (List.nodup_range i)
    intro j1 h1 j2 h2 he
    rw [List.mem_range] at h1 h2
    have hb := congrArg (fun x => x.testBit j1) he
    simp only [Nat.testBit_lor, Nat.one_shiftLeft, Nat.testBit_two_pow] at hb
    have hij1 : ¬i = j1 := by omega
    rw [decide_eq_false hij1, Bool.false_or, Bool.false_or] at hb
    have hj : j2 = j1 := by simpa using hb.symm
    exact hj.symm
  · have hp : (List.range M).Pairwise (· < ·) := List.sorted_lt_range M
    apply hp.imp
    intro i1 i2 hlt
    intro d hd1 hd2
    rw [List.mem_map] at hd1 hd2
    obtain ⟨j1, hj1, rfl⟩ := hd1
    obtain ⟨j2, hj2, he⟩ := hd2
    rw [List.mem_range] at hj1 hj2
    have hb := congrArg (fun x => x.testBit i2) he
    simp only [Nat.testBit_lor, Nat.one_shiftLeft, Nat.testBit_two_pow] at hb
    have h1 : ¬i1 = i2 := by omega
    have h2 : ¬j1 = i2 := by omega
    simp [h1, h2] at hb

theorem sum_map_range_id : ∀ M : ℕ, 2 * ((List.range M).map (fun i => i)).sum = M * (M - 1) := by
  intro M
  induction M with
  | zero => rfl
  | succ m ih =>
    rw [List.range_succ, List.map_append, List.sum_append]
    simp only [List.map_cons, List.map_nil, List.sum_cons, List.sum_nil]
    cases m with
    | zero => rfl
    | succ k =>
      have ih2 : 2 * ((List.range (k + 1)).map (fun i => i)).sum = (k + 1) * k := by
        rw [ih, Nat.add_sub_cancel]
      have hgoal : (k + 1 + 1) * (k + 1 + 1 - 1) = (k + 1) * k + 2 * (k + 1) := by
        rw [Nat.add_sub_cancel]
        ring
      calc 2 * (((List.range (k + 1)).map (fun i => i)).sum + (k + 1 + 0))
          = 2 * ((List.range (k + 1)).map (fun i => i)).sum + 2 * (k + 1) := by ring
        _ = (k + 1) * k + 2 * (k + 1) := by rw [ih2]
        _ = (k + 1 + 1) * (k + 1 + 1 - 1) := hgoal.symm

theorem cisd_det_list_two_length {M : ℕ} (hM : 2 ≤ M) :
    2 * (cisd_det_list 2 M).length = M * (M - 1) := by
  unfold cisd_det_list
  have h3 : (2 : ℕ) ^ 2 - 1 = 3 := by norm_num
  rw [h3, residues_three hM, add_particles_zero,
    List.dedup_eq_self.mpr (raw_pairs_nodup M), length_flatMap_eq]
  have hmap : (List.range M).map
        (fun i => ((List.range i).map (fun j => (1 <<< i) ||| (1 <<< j))).length) =
      (List.range M).map (fun i => i) := by
    apply List.map_congr_left
    intro i hi
    rw [List.length_map, List.length_range]
  rw [hmap, sum_map_range_id]

/-- C8: whenever the determinant-space size exceeds the ceiling of 5000
(list length for CISD, C(M,N) for FCI), the run aborts with the
too-expensive error and no Hamiltonian is built. -/
theorem claim_C8 : ∀ (N M : ℕ) (Hp : ℕ → ℕ → ℝ) (db : ℕ → ℕ → ℕ → ℕ → ℝ),
    (5000 < (cisd_det_list N M).length →
      CISD_run N M Hp db = Except.error "CI too expensive. Quitting.") ∧
    (5000 < Nat.choose M N →
      FCI_run N M Hp db = Except.error "FCI too expensive. Quitting.") := by
  intro N M Hp db
  constructor
  · intro h
    unfold CISD_run
    rw [if_pos h]
  · intro h
    unfold FCI_run
    rw [if_pos h]

theorem claim_C8_witness :
    (5000 < (cisd_det_list 2 102).length ∧
      CISD_run 2 102 (fun _ _ => 0) (fun _ _ _ _ => 0) =
        Except.error "CI too expensive. Quitting.") ∧
    (5000 < Nat.choose 104 2 ∧
      FCI_run 2 104 (fun _ _ => 0) (fun _ _ _ _ => 0) =
        Except.error "FCI too expensive. Quitting.") := by
  have hlen : 5000 < (cisd_det_list 2 102).length := by
    have h := cisd_det_list_two_length (by norm_num : (2 : ℕ) ≤ 102)
    omega
  have hch : 5000 < Nat.choose 104 2 := by decide
  exact ⟨⟨hlen, (claim_C8 2 102 _ _).1 hlen⟩, ⟨hch, (claim_C8 2 104 _ _).2 hch⟩⟩

/-! Slater-Condon dispatch formulas. -/

theorem foldl_add_eq (f : ℕ → ℝ) :
    ∀ (l : List ℕ) (a : ℝ), l.foldl (fun t n => t + f n) a = a + (l.map f).sum := by
  intro l
  induction l with
  | nil => intro a; simp
  | cons x l ih =>
    intro a
    rw [List.foldl_cons, ih, List.map_cons, List.sum_cons]
    ring

theorem sum_map_add (f g : ℕ → ℝ) : ∀ (l : List ℕ),
    (l.map (fun x => f x + g x)).sum = (l.map f).sum + (l.map g).sum := by
  intro l
  induction l with
  | nil => simp
  | cons x l ih =>
    rw [List.map_cons, List.map_cons, List.map_cons, List.sum_cons, List.sum_cons,
      List.sum_cons, ih]
    ring

theorem sum_map_mul_left (c : ℝ) (f : ℕ → ℝ) : ∀ (l : List ℕ),
    (l.map (fun x => c * f x)).sum = c * (l.map f).sum := by
  intro l
  induction l with
  | nil => simp
  | cons x l ih =>
    rw [List.map_cons, List.map_cons, List.sum_cons, List.sum_cons, ih]
    ring

theorem get_excitation_self (det : ℕ) :
    get_excitation det det = { degree := 0, holes := [], particles := [], phase := 1 } := by
  have h0 : andNot det det = 0 := by
    rw [andNot, Nat.and_self, Nat.xor_self]
  unfold get_excitation
  rw [Nat.xor_self, h0]
  rfl

/-- C1: build_full_hamiltonian returns a symmetric matrix whose dimension is
the determinant-list length; for j ≤ i the entry is the Slater-Condon
element for (det_i, det_j), and every entry is mirrored across the
diagonal. -/
theorem claim_C1 : ∀ (Hp : ℕ → ℕ → ℝ) (db : ℕ → ℕ → ℕ → ℕ → ℝ) (det_list : List ℕ)
    (i j : ℕ), i < det_list.length → j < det_list.length →
    build_full_hamiltonian Hp db det_list i j = build_full_hamiltonian Hp db det_list j i ∧
    (j ≤ i → build_full_hamiltonian Hp db det_list i j =
      hamiltonian_matrix_element Hp db (det_list.getD i 0) (det_list.getD j 0)) := by
  intro Hp db det_list i j hi hj
  rw [build_full_hamiltonian_eq]
  simp only []
  constructor
  · split_ifs <;> first | rfl | (congr <;> omega)
  · intro hji
    rw [if_pos ⟨hi, hji⟩]

theorem claim_C1_witness :
    build_full_hamiltonian (fun _ _ => 0) (fun _ _ _ _ => 0) [1, 2] 1 0 =
      build_full_hamiltonian (fun _ _ => 0) (fun _ _ _ _ => 0) [1, 2] 0 1 ∧
    build_full_hamiltonian (fun _ _ => 0) (fun _ _ _ _ => 0) [1, 2] 1 0 =
      hamiltonian_matrix_element (fun _ _ => 0) (fun _ _ _ _ => 0)
        (([1, 2] : List ℕ).getD 1 0) (([1, 2] : List ℕ).getD 0 0) :=
  ⟨(claim_C1 _ _ [1, 2] 1 0 (by decide) (by decide)).1,
   (claim_C1 _ _ [1, 2] 1 0 (by decide) (by decide)).2 (by decide)⟩

/-- C2: for equal determinants the excitation degree is 0 and the matrix
element is the diagonal formula: the sum of h[m,m] over occupied orbitals
plus one half of the double sum of the antisymmetrized integrals <mn||mn>;
build_full_hamiltonian of a one-element list returns exactly this value as
its single entry. -/
theorem claim_C2 : ∀ (Hp : ℕ → ℕ → ℝ) (db : ℕ → ℕ → ℕ → ℕ → ℝ) (det : ℕ),
    (get_excitation det det).degree = 0 ∧
    hamiltonian_matrix_element Hp db det det =
      ((bitIndices det).map (fun m => Hp m m)).sum +
        (1 / 2 : ℝ) * ((bitIndices det).map
          (fun m => ((bitIndices det).map (fun n => db m n m n)).sum)).sum ∧
    build_full_hamiltonian Hp db [det] 0 0 = hamiltonian_matrix_element Hp db det det := by
  intro Hp db det
  have hcommon : common_index det det = bitIndices det := by
    rw [common_index, Nat.and_self]
  have hself := get_excitation_self det
  refine ⟨by rw [hself], ?_, ?_⟩
  · unfold hamiltonian_matrix_element
    rw [hself, hcommon]
    norm_num
    have hfold : ∀ (c : ℝ) (l : List ℕ),
        (bitIndices det).foldl
          (fun tmp m => l.foldl (fun t2 n => t2 + c * db m n m n) (tmp + Hp m m)) 0 =
        ((bitIndices det).map
          (fun m => Hp m m + (l.map (fun n => c * db m n m n)).sum)).sum := by
      intro c l
      have hstep : (fun (tmp : ℝ) (m : ℕ) =>
          l.foldl (fun t2 n => t2 + c * db m n m n) (tmp + Hp m m)) =
          fun tmp m => tmp + (Hp m m + (l.map (fun n => c * db m n m n)).sum) := by
        funext tmp m
        rw [foldl_add_eq]
        ring
      rw [hstep, foldl_add_eq]
      ring
    rw [hfold (1 / 2) (bitIndices det), sum_map_add (fun m => Hp m m)
      (fun m => ((bitIndices det).map (fun n => (1 / 2 : ℝ) * db m n m n)).sum)]
    have h05 : ∀ m, ((bitIndices det).map (fun n => (1 / 2 : ℝ) * db m n m n)).sum =
        (1 / 2 : ℝ) * ((bitIndices det).map (fun n => db m n m n)).sum := fun m =>
      sum_map_mul_left (1 / 2) (fun n => db m n m n) (bitIndices det)
    rw [List.map_congr_left (fun m _ => h05 m), sum_map_mul_left]
  · rw [build_full_hamiltonian_eq]
    norm_num

/-- C3: for determinant pairs of excitation degree 1 with hole m, particle
p and phase as produced by the excitation analyzer, the matrix element is
phase * (h[m,p] + sum over commonly occupied orbitals n of <mn||pn>). -/
theorem claim_C3 : ∀ (Hp : ℕ → ℕ → ℝ) (db : ℕ → ℕ → ℕ → ℕ → ℝ) (det1 det2 : ℕ),
    (get_excitation det1 det2).degree = 1 →
    hamiltonian_matrix_element Hp db det1 det2 =
      ((get_excitation det1 det2).phase : ℝ) *
        (Hp ((get_excitation det1 det2).holes.getD 0 0)
            ((get_excitation det1 det2).particles.getD 0 0) +
         ((common_index det1 det2).map (fun n =>
            db ((get_excitation det1 det2).holes.getD 0 0) n
              ((get_excitation det1 det2).particles.getD 0 0) n)).sum) := by
  intro Hp db det1 det2 h
  simp only [hamiltonian_matrix_element]
  rw [h]
  norm_num
  rw [foldl_add_eq]
  exact Or.inl rfl

theorem claim_C3_witness :
    (get_excitation 1 2).degree = 1 ∧
    hamiltonian_matrix_element (fun _ _ => 0) (fun _ _ _ _ => 0) 1 2 =
      ((get_excitation 1 2).phase : ℝ) *
        ((fun _ _ => (0 : ℝ)) ((get_excitation 1 2).holes.getD 0 0)
            ((get_excitation 1 2).particles.getD 0 0) +
         ((common_index 1 2).map (fun n =>
            (fun _ _ _ _ => (0 : ℝ)) ((get_excitation 1 2).holes.getD 0 0) n
              ((get_excitation 1 2).particles.getD 0 0) n)).sum) :=
  ⟨by decide, claim_C3 _ _ 1 2 (by decide)⟩

/-- C4: for excitation degree 2 with holes m,n and particles p,q from the
excitation analyzer the matrix element is phase * <mn||pq>, and for degree
above 2 it is exactly 0. -/
theorem claim_C4 : ∀ (Hp : ℕ → ℕ → ℝ) (db : ℕ → ℕ → ℕ → ℕ → ℝ) (det1 det2 : ℕ),
    ((get_excitation det1 det2).degree = 2 →
      hamiltonian_matrix_element Hp db det1 det2 =
        ((get_excitation det1 det2).phase : ℝ) *
          db ((get_excitation det1 det2).holes.getD 0 0)
            ((get_excitation det1 det2).holes.getD 1 0)
            ((get_excitation det1 det2).particles.getD 0 0)
            ((get_excitation det1 det2).particles.getD 1 0)) ∧
    (2 < (get_excitation det1 det2).degree →
      hamiltonian_matrix_element Hp db det1 det2 = 0) := by
  intro Hp db det1 det2
  constructor
  · intro h
    simp only [hamiltonian_matrix_element]
    rw [h]
    norm_num
  · intro h
    simp only [hamiltonian_matrix_element]
    rw [if_pos h]

theorem claim_C4_witness :
    ((get_excitation 3 12).degree = 2 ∧
      hamiltonian_matrix_element (fun _ _ => 0) (fun _ _ _ _ => 0) 3 12 =
        ((get_excitation 3 12).phase : ℝ) *
          (fun _ _ _ _ => (0 : ℝ)) ((get_excitation 3 12).holes.getD 0 0)
            ((get_excitation 3 12).holes.getD 1 0)
            ((get_excitation 3 12).particles.getD 0 0)
            ((get_excitation 3 12).particles.getD 1 0)) ∧
    (2 < (get_excitation 7 56).degree ∧
      hamiltonian_matrix_element (fun _ _ => 0) (fun _ _ _ _ => 0) 7 56 = 0) :=
  ⟨⟨by decide, (claim_C4 _ _ 3 12).1 (by decide)⟩,
   ⟨by decide, (claim_C4 _ _ 7 56).2 (by decide)⟩⟩

/-- C9: the antisymmetrized spin-orbital tensor satisfies
db[p,q,s,r] = -db[p,q,r,s] unconditionally, and db[q,p,r,s] = -db[p,q,r,s]
given the bra-ket exchange symmetry of the underlying real spatial
integrals. -/
theorem claim_C9 : ∀ (single_bar : ℕ → ℕ → ℕ → ℕ → ℝ) (p q r s : ℕ),
    double_bar single_bar p q s r = -double_bar single_bar p q r s ∧
    ((∀ a b c d, single_bar a b c d = single_bar c d a b) →
      double_bar single_bar q p r s = -double_bar single_bar p q r s) := by
  intro sb p q r s
  constructor
  · unfold double_bar
    ring
  · intro h
    unfold double_bar
    rw [h (q / 2) (r / 2) (p / 2) (s / 2), h (q / 2) (s / 2) (p / 2) (r / 2)]
    ring

theorem claim_C9_witness :
    double_bar (fun _ _ _ _ => (1 : ℝ)) 0 1 1 0 = -double_bar (fun _ _ _ _ => (1 : ℝ)) 0 1 0 1 ∧
    double_bar (fun _ _ _ _ => (1 : ℝ)) 1 0 0 1 = -double_bar (fun _ _ _ _ => (1 : ℝ)) 0 1 0 1 :=
  ⟨(claim_C9 (fun _ _ _ _ => (1 : ℝ)) 0 1 0 1).1,
   (claim_C9 (fun _ _ _ _ => (1 : ℝ)) 0 1 0 1).2 (fun _ _ _ _ => rfl)⟩

/-- C10: on a non-empty tuple of pairwise-distinct orbital indices,
tuple2bitstring returns a bit string of length max(tuple)+1 whose unsigned
value is the sum of 2^i over the tuple, with bit i set exactly when orbital
i is in the tuple; on the empty tuple the operation is undefined (none). -/
theorem claim_C10 : ∀ (t : List ℕ),
    tuple2bitstring [] = none ∧
    (t ≠ [] → t.Nodup → ∃ s, tuple2bitstring t = some s ∧
      s.length = t.foldr max 0 + 1 ∧
      uintOfBin s = (t.map (fun i => 2 ^ i)).sum ∧
      ∀ i, (uintOfBin s).testBit i = true ↔ i ∈ t) := by
  intro t
  refine ⟨rfl, ?_⟩
  intro hne hnd
  refine ⟨bitstringChars t, ?_, length_bitstringChars t, ?_, ?_⟩
  · cases t with
    | nil => exact absurd rfl hne
    | cons i t2 => rfl
  · rw [uintOfBin_bitstringChars, List.sum_toFinset _ hnd]
  · exact testBit_uintOfBin_bitstringChars t

theorem claim_C10_witness :
    ([0, 2] : List ℕ) ≠ [] ∧ ([0, 2] : List ℕ).Nodup ∧
    (∃ s, tuple2bitstring [0, 2] = some s ∧
      s.length = ([0, 2] : List ℕ).foldr max 0 + 1 ∧
      uintOfBin s = (([0, 2] : List ℕ).map (fun i => 2 ^ i)).sum ∧
      ∀ i, (uintOfBin s).testBit i = true ↔ i ∈ ([0, 2] : List ℕ)) :=
  ⟨by decide, by decide, (claim_C10 [0, 2]).2 (by decide) (by decide)⟩

/-! CISD generator correctness (C5). -/

theorem insert_minmax {x y : ℕ} (A : Finset ℕ) :
    insert (min x y) (insert (max x y) A) = insert x (insert y A) := by
  rcases le_total x y with h | h
  · rw [min_eq_left h, max_eq_right h]
  · rw [min_eq_right h, max_eq_left h, Finset.Insert.comm]

theorem erase_minmax {x y : ℕ} (A : Finset ℕ) :
    (A.erase (max x y)).erase (min x y) = (A.erase x).erase y := by
  rcases le_total x y with h | h
  · rw [min_eq_left h, max_eq_right h, Finset.erase_right_comm]
  · rw [min_eq_right h, max_eq_left h]

theorem sdiff_union_sdiff_eq (s t : Finset ℕ) : s \ (s \ t) ∪ t \ s = t := by
  ext x
  simp only [Finset.mem_union, Finset.mem_sdiff]
  by_cases hs : x ∈ s <;> by_cases ht : x ∈ t <;> simp [hs, ht]

theorem occSet_xor {M a b : ℕ} :
    occSet M (a ^^^ b) = occSet M a \ occSet M b ∪ occSet M b \ occSet M a := by
  ext k
  simp only [Finset.mem_union, Finset.mem_sdiff, mem_occSet, Nat.testBit_xor]
  cases ha : a.testBit k <;> cases hb : b.testBit k <;> simp [ha, hb]

theorem testBit_residue {ref i j b : ℕ} (h : j ≠ i) :
    (andNot ref ((1 <<< i) ^^^ (1 <<< j))).testBit b =
      (ref.testBit b && !(decide (b = i) || decide (b = j))) := by
  rw [testBit_andNot, testBit_pair_mask h]

/-- Uniform membership constructor for the CISD list: remove occupied
orbitals ih2 > jh2 of ref, add back unoccupied orbitals i > j of the residue;
any d < 2^M whose occupation set matches is in the list. -/
theorem cisd_mem_of_parts {M ref d : ℕ} (ih2 jh2 i j : ℕ)
    (href : ref < 2 ^ M) (hd : d < 2 ^ M)
    (hjhih : jh2 < ih2) (hihM : ih2 < M)
    (hbih : ref.testBit ih2 = true) (hbjh : ref.testBit jh2 = true)
    (hji : j < i) (hiM : i < M)
    (hri : (andNot ref ((1 <<< ih2) ^^^ (1 <<< jh2))).testBit i = false)
    (hrj : (andNot ref ((1 <<< ih2) ^^^ (1 <<< jh2))).testBit j = false)
    (hocc : occSet M d = insert j (insert i (((occSet M ref).erase ih2).erase jh2))) :
    d ∈ add_particles M (residues M ref) := by
  have hij : ¬i = j := fun hc => absurd hc.symm (Nat.ne_of_lt hji)
  have hbj2 : ((andNot ref ((1 <<< ih2) ^^^ (1 <<< jh2))) ||| (1 <<< i)).testBit j = false := by
    rw [Nat.testBit_lor, hrj, Nat.one_shiftLeft, Nat.testBit_two_pow]
    simp [hij]
  have hconstr_lt :
      ((andNot ref ((1 <<< ih2) ^^^ (1 <<< jh2))) ||| (1 <<< i)) ||| (1 <<< j) < 2 ^ M := by
    apply lt_two_pow_of_testBit_lt
    intro b hb
    rw [Nat.testBit_lor, Bool.or_eq_true] at hb
    rcases hb with hb | hb
    · rw [Nat.testBit_lor, Bool.or_eq_true] at hb
      rcases hb with hb | hb
      · rw [testBit_andNot, Bool.and_eq_true] at hb
        exact testBit_lt_of_lt_two_pow href hb.1
      · rw [Nat.one_shiftLeft, Nat.testBit_two_pow] at hb
        have : i = b := by simpa using hb
        omega
    · rw [Nat.one_shiftLeft, Nat.testBit_two_pow] at hb
      have : j = b := by simpa using hb
      omega
  have hocc2 : occSet M (((andNot ref ((1 <<< ih2) ^^^ (1 <<< jh2))) ||| (1 <<< i)) ||| (1 <<< j))
      = insert j (insert i (((occSet M ref).erase ih2).erase jh2)) := by
    rw [occSet_lor_pow (lt_trans hji hiM), occSet_lor_pow hiM,
      occSet_andNot_pair (Nat.ne_of_lt hjhih)]
  have hde : d = ((andNot ref ((1 <<< ih2) ^^^ (1 <<< jh2))) ||| (1 <<< i)) ||| (1 <<< j) :=
    occSet_inj hd hconstr_lt (by rw [hocc, hocc2])
  rw [hde]
  exact mem_add_particles.mpr
    ⟨andNot ref ((1 <<< ih2) ^^^ (1 <<< jh2)),
     mem_residues.mpr ⟨ih2, jh2, hjhih, hihM, hbih, hbjh, rfl⟩,
     i, j, hji, hiM, hri, hbj2, rfl⟩

theorem mem_pair_minmax {x y b : ℕ} (h : b = x ∨ b = y) :
    (decide (b = max x y) || decide (b = min x y)) = true := by
  rcases le_total x y with hle | hle
  · rw [max_eq_right hle, min_eq_left hle]
    rcases h with rfl | rfl
    · simp
    · simp
  · rw [max_eq_left hle, min_eq_right hle]
    rcases h with rfl | rfl
    · simp
    · simp

theorem cisd_contains_ref {M ref N : ℕ} (hN : 2 ≤ N) (href : ref < 2 ^ M)
    (hpop : popcount ref = N) :
    ref ∈ add_particles M (residues M ref) := by
  have hcard : 1 < (occSet M ref).card := by
    rw [← popcount_eq_card_occSet href, hpop]
    omega
  obtain ⟨a, ha, b, hb, hab⟩ := Finset.one_lt_card.mp hcard
  obtain ⟨haM, haB⟩ := mem_occSet.mp ha
  obtain ⟨hbM, hbB⟩ := mem_occSet.mp hb
  have hminmax : min a b < max a b := min_lt_max.mpr hab
  have hmaxM : max a b < M := max_lt haM hbM
  have hmaxB : ref.testBit (max a b) = true := by
    rcases max_choice a b with h | h <;> rw [h] <;> assumption
  have hminB : ref.testBit (min a b) = true := by
    rcases min_choice a b with h | h <;> rw [h] <;> assumption
  refine cisd_mem_of_parts (max a b) (min a b) (max a b) (min a b) href href
    hminmax hmaxM hmaxB hminB hminmax hmaxM ?_ ?_ ?_
  · rw [testBit_residue (Nat.ne_of_lt hminmax)]
    simp
  · rw [testBit_residue (Nat.ne_of_lt hminmax)]
    simp
  · rw [insert_minmax, erase_minmax]
    have hbe : b ∈ (occSet M ref).erase a := Finset.mem_erase.mpr ⟨Ne.symm hab, hb⟩
    rw [Finset.insert_erase hbe, Finset.insert_erase ha]

theorem cisd_complete {M ref N : ℕ} (hN : 2 ≤ N) (href : ref < 2 ^ M)
    (hpopr : popcount ref = N) :
    ∀ d, d < 2 ^ M → popcount d = N →
      (popcount (d ^^^ ref) = 2 ∨ popcount (d ^^^ ref) = 4) →
      d ∈ add_particles M (residues M ref) := by
  intro d hd hpopd hxor
  have hcardS : (occSet M ref).card = N := by rw [← popcount_eq_card_occSet href, hpopr]
  have hcardT : (occSet M d).card = N := by rw [← popcount_eq_card_occSet hd, hpopd]
  have hxorlt : d ^^^ ref < 2 ^ M := by
    apply lt_two_pow_of_testBit_lt
    intro b hb
    rw [Nat.testBit_xor] at hb
    cases hdb : d.testBit b with
    | true => exact testBit_lt_of_lt_two_pow hd hdb
    | false =>
      rw [hdb] at hb
      simp only [Bool.false_xor] at hb
      exact testBit_lt_of_lt_two_pow href hb
  have hdisj : Disjoint (occSet M d \ occSet M ref) (occSet M ref \ occSet M d) := by
    apply Finset.disjoint_left.mpr
    intro x hx1 hx2
    rw [Finset.mem_sdiff] at hx1 hx2
    exact hx1.2 hx2.1
  have hcards : (occSet M d \ occSet M ref).card + (occSet M ref \ occSet M d).card =
      popcount (d ^^^ ref) := by
    rw [popcount_eq_card_occSet hxorlt, occSet_xor, Finset.card_union_of_disjoint hdisj]
  have hHP : (occSet M ref \ occSet M d).card = (occSet M d \ occSet M ref).card := by
    have h1 := Finset.card_sdiff_add_card_inter (occSet M ref) (occSet M d)
    have h2 := Finset.card_sdiff_add_card_inter (occSet M d) (occSet M ref)
    rw [hcardS] at h1
    rw [hcardT, Finset.inter_comm] at h2
    omega
  rcases hxor with h2 | h4
  · -- one hole, one particle
    have hc1 : (occSet M ref \ occSet M d).card = 1 := by omega
    have hc2 : (occSet M d \ occSet M ref).card = 1 := by omega
    obtain ⟨h, hHh⟩ := Finset.card_eq_one.mp hc1
    obtain ⟨p, hPp⟩ := Finset.card_eq_one.mp hc2
    have hhmem : h ∈ occSet M ref \ occSet M d := by
      rw [hHh]; exact Finset.mem_singleton_self h
    have hpmem : p ∈ occSet M d \ occSet M ref := by
      rw [hPp]; exact Finset.mem_singleton_self p
    have hhS : h ∈ occSet M ref := (Finset.mem_sdiff.mp hhmem).1
    have hhT : h ∉ occSet M d := (Finset.mem_sdiff.mp hhmem).2
    have hpT : p ∈ occSet M d := (Finset.mem_sdiff.mp hpmem).1
    have hpS : p ∉ occSet M ref := (Finset.mem_sdiff.mp hpmem).2
    have herase : 0 < ((occSet M ref).erase h).card := by
      rw [Finset.card_erase_of_mem hhS, hcardS]
      omega
    obtain ⟨o, ho⟩ := Finset.card_pos.mp herase
    have hoS : o ∈ occSet M ref := Finset.mem_of_mem_erase ho
    have hoh : o ≠ h := Finset.ne_of_mem_erase ho
    obtain ⟨hhM, hhB⟩ := mem_occSet.mp hhS
    obtain ⟨hoM, hoB⟩ := mem_occSet.mp hoS
    obtain ⟨hpM, hpB⟩ := mem_occSet.mp hpT
    have hpBr : ref.testBit p = false := by
      cases hb : ref.testBit p with
      | false => rfl
      | true => exact absurd (mem_occSet.mpr ⟨hpM, hb⟩) hpS
    have hpo : p ≠ o := fun hc => hpS (hc ▸ hoS)
    have hoT : o ∈ occSet M d := by
      by_contra hc
      have hmem : o ∈ occSet M ref \ occSet M d := Finset.mem_sdiff.mpr ⟨hoS, hc⟩
      rw [hHh] at hmem
      exact hoh (Finset.mem_singleton.mp hmem)
    have hTid : occSet M d = insert p ((occSet M ref).erase h) := by
      ext x
      rw [Finset.mem_insert, Finset.mem_erase]
      constructor
      · intro hx
        by_cases hxS : x ∈ occSet M ref
        · right
          refine ⟨?_, hxS⟩
          intro hc
          rw [hc] at hx
          exact hhT hx
        · left
          have hmem : x ∈ occSet M d \ occSet M ref := Finset.mem_sdiff.mpr ⟨hx, hxS⟩
          rw [hPp] at hmem
          exact Finset.mem_singleton.mp hmem
      · rintro (rfl | ⟨hxh, hxS⟩)
        · exact hpT
        · by_contra hc
          have hmem : x ∈ occSet M ref \ occSet M d := Finset.mem_sdiff.mpr ⟨hxS, hc⟩
          rw [hHh] at hmem
          exact hxh (Finset.mem_singleton.mp hmem)
    have hminmaxH : min h o < max h o := min_lt_max.mpr (Ne.symm hoh)
    have hminmaxP : min p o < max p o := min_lt_max.mpr hpo
    refine cisd_mem_of_parts (max h o) (min h o) (max p o) (min p o) href hd
      hminmaxH (max_lt hhM hoM) ?_ ?_ hminmaxP (max_lt hpM hoM) ?_ ?_ ?_
    · rcases max_choice h o with hc | hc <;> rw [hc] <;> assumption
    · rcases min_choice h o with hc | hc <;> rw [hc] <;> assumption
    · rw [testBit_residue (Nat.ne_of_lt hminmaxH)]
      rcases max_choice p o with hc | hc <;> rw [hc]
      · rw [hpBr]
        rfl
      · rw [mem_pair_minmax (Or.inr rfl)]
        simp
    · rw [testBit_residue (Nat.ne_of_lt hminmaxH)]
      rcases min_choice p o with hc | hc <;> rw [hc]
      · rw [hpBr]
        rfl
      · rw [mem_pair_minmax (Or.inr rfl)]
        simp
    · rw [insert_minmax, erase_minmax]
      have hoe : o ∈ (occSet M ref).erase h := Finset.mem_erase.mpr ⟨hoh, hoS⟩
      rw [Finset.insert_erase hoe]
      exact hTid
  · -- two holes, two particles
    have hc1 : (occSet M ref \ occSet M d).card = 2 := by omega
    have hc2 : (occSet M d \ occSet M ref).card = 2 := by omega
    obtain ⟨h1, h2, hhne, hHeq⟩ := Finset.card_eq_two.mp hc1
    obtain ⟨p1, p2, hpne, hPeq⟩ := Finset.card_eq_two.mp hc2
    have hh1mem : h1 ∈ occSet M ref \ occSet M d := by
      rw [hHeq]; exact Finset.mem_insert_self h1 _
    have hh2mem : h2 ∈ occSet M ref \ occSet M d := by
      rw [hHeq]; exact Finset.mem_insert_of_mem (Finset.mem_singleton_self h2)
    have hp1mem : p1 ∈ occSet M d \ occSet M ref := by
      rw [hPeq]; exact Finset.mem_insert_self p1 _
    have hp2mem : p2 ∈ occSet M d \ occSet M ref := by
      rw [hPeq]; exact Finset.mem_insert_of_mem (Finset.mem_singleton_self p2)
    have hh1S : h1 ∈ occSet M ref := (Finset.mem_sdiff.mp hh1mem).1
    have hh1T : h1 ∉ occSet M d := (Finset.mem_sdiff.mp hh1mem).2
    have hh2S : h2 ∈ occSet M ref := (Finset.mem_sdiff.mp hh2mem).1
    have hh2T : h2 ∉ occSet M d := (Finset.mem_sdiff.mp hh2mem).2
    have hp1T : p1 ∈ occSet M d := (Finset.mem_sdiff.mp hp1mem).1
    have hp1S : p1 ∉ occSet M ref := (Finset.mem_sdiff.mp hp1mem).2
    have hp2T : p2 ∈ occSet M d := (Finset.mem_sdiff.mp hp2mem).1
    have hp2S : p2 ∉ occSet M ref := (Finset.mem_sdiff.mp hp2mem).2
    obtain ⟨hh1M, hh1B⟩ := mem_occSet.mp hh1S
    obtain ⟨hh2M, hh2B⟩ := mem_occSet.mp hh2S
    obtain ⟨hp1M, hp1B⟩ := mem_occSet.mp hp1T
    obtain ⟨hp2M, hp2B⟩ := mem_occSet.mp hp2T
    have hp1Br : ref.testBit p1 = false := by
      cases hb : ref.testBit p1 with
      | false => rfl
      | true => exact absurd (mem_occSet.mpr ⟨hp1M, hb⟩) hp1S
    have hp2Br : ref.testBit p2 = false := by
      cases hb : ref.testBit p2 with
      | false => rfl
      | true => exact absurd (mem_occSet.mpr ⟨hp2M, hb⟩) hp2S
    have hTid : occSet M d = insert p1 (insert p2 (((occSet M ref).erase h1).erase h2)) := by
      ext x
      rw [Finset.mem_insert, Finset.mem_insert, Finset.mem_erase, Finset.mem_erase]
      constructor
      · intro hx
        by_cases hxS : x ∈ occSet M ref
        · right; right
          have hxH : x ∉ occSet M ref \ occSet M d := by
            intro hc
            rw [Finset.mem_sdiff] at hc
            exact hc.2 hx
          rw [hHeq] at hxH
          simp only [Finset.mem_insert, Finset.mem_singleton] at hxH
          push_neg at hxH
          exact ⟨hxH.2, hxH.1, hxS⟩
        · have hmem : x ∈ occSet M d \ occSet M ref := Finset.mem_sdiff.mpr ⟨hx, hxS⟩
          rw [hPeq] at hmem
          simp only [Finset.mem_insert, Finset.mem_singleton] at hmem
          rcases hmem with rfl | rfl
          · exact Or.inl rfl
          · exact Or.inr (Or.inl rfl)
      · rintro (rfl | rfl | ⟨hxh2, hxh1, hxS⟩)
        · exact hp1T
        · exact hp2T
        · by_contra hc
          have hmem : x ∈ occSet M ref \ occSet M d := Finset.mem_sdiff.mpr ⟨hxS, hc⟩
          rw [hHeq] at hmem
          simp only [Finset.mem_insert, Finset.mem_singleton] at hmem
          rcases hmem with rfl | rfl
          · exact hxh1 rfl
          · exact hxh2 rfl
    have hminmaxH : min h1 h2 < max h1 h2 := min_lt_max.mpr hhne
    have hminmaxP : min p1 p2 < max p1 p2 := min_lt_max.mpr hpne
    refine cisd_mem_of_parts (max h1 h2) (min h1 h2) (max p1 p2) (min p1 p2) href hd
      hminmaxH (max_lt hh1M hh2M) ?_ ?_ hminmaxP (max_lt hp1M hp2M) ?_ ?_ ?_
    · rcases max_choice h1 h2 with hc | hc <;> rw [hc] <;> assumption
    · rcases min_choice h1 h2 with hc | hc <;> rw [hc] <;> assumption
    · rw [testBit_residue (Nat.ne_of_lt hminmaxH)]
      rcases max_choice p1 p2 with hc | hc <;> rw [hc]
      · rw [hp1Br]
        rfl
      · rw [hp2Br]
        rfl
    · rw [testBit_residue (Nat.ne_of_lt hminmaxH)]
      rcases min_choice p1 p2 with hc | hc <;> rw [hc]
      · rw [hp1Br]
        rfl
      · rw [hp2Br]
        rfl
    · rw [insert_minmax, erase_minmax]
      exact hTid

theorem add_particles_nodup (nOrb : ℕ) (rl : List ℕ) : (add_particles nOrb rl).Nodup := by
  unfold add_particles
  exact List.nodup_dedup _

theorem cisd_occ_of_mem {M ref d : ℕ} (h : d ∈ add_particles M (residues M ref)) :
    ∃ ih2 jh2 i j, jh2 < ih2 ∧ ih2 < M ∧ j < i ∧ i < M ∧
      occSet M d = insert j (insert i (((occSet M ref).erase ih2).erase jh2)) := by
  obtain ⟨r, hr, i, j, hji, hiM, hri, hrj, rfl⟩ := mem_add_particles.mp h
  obtain ⟨ih2, jh2, hjhih, hihM, hbih, hbjh, rfl⟩ := mem_residues.mp hr
  refine ⟨ih2, jh2, i, j, hjhih, hihM, hji, hiM, ?_⟩
  rw [occSet_lor_pow (lt_trans hji hiM), occSet_lor_pow hiM,
    occSet_andNot_pair (Nat.ne_of_lt hjhih)]

theorem cisd_length_bound {M ref N : ℕ} (href : ref < 2 ^ M) (hpopr : popcount ref = N) :
    (add_particles M (residues M ref)).length ≤
      N.choose 2 * (M - N).choose 2 + N * (M - N) + 1 := by
  have hSsub : occSet M ref ⊆ Finset.range M := Finset.filter_subset _ _
  have hcardS : (occSet M ref).card = N := by rw [← popcount_eq_card_occSet href, hpopr]
  have hcardV : (Finset.range M \ occSet M ref).card = M - N := by
    rw [Finset.card_sdiff hSsub, Finset.card_range, hcardS]
  have hnodup : (add_particles M (residues M ref)).Nodup := add_particles_nodup M _
  rw [← List.toFinset_card_of_nodup hnodup]
  have hmaps : ∀ d ∈ (add_particles M (residues M ref)).toFinset,
      (occSet M ref \ occSet M d, occSet M d \ occSet M ref) ∈
        (Finset.powersetCard 0 (occSet M ref) ×ˢ
            Finset.powersetCard 0 (Finset.range M \ occSet M ref) ∪
          Finset.powersetCard 1 (occSet M ref) ×ˢ
            Finset.powersetCard 1 (Finset.range M \ occSet M ref)) ∪
        Finset.powersetCard 2 (occSet M ref) ×ˢ
          Finset.powersetCard 2 (Finset.range M \ occSet M ref) := by
    intro d hd
    rw [List.mem_toFinset] at hd
    obtain ⟨ih2, jh2, i, j, hjhih, hihM, hji, hiM, hocc⟩ := cisd_occ_of_mem hd
    have hdlt : d < 2 ^ M := cisd_member_lt_two_pow href hd
    have hpopd : popcount d = N := by rw [cisd_member_popcount hd, hpopr]
    have hcardT : (occSet M d).card = N := by rw [← popcount_eq_card_occSet hdlt, hpopd]
    have hHsub : occSet M ref \ occSet M d ⊆ insert ih2 {jh2} := by
      intro x hx
      rw [Finset.mem_sdiff] at hx
      rw [Finset.mem_insert, Finset.mem_singleton]
      by_contra hc
      push_neg at hc
      apply hx.2
      rw [hocc]
      exact Finset.mem_insert_of_mem (Finset.mem_insert_of_mem
        (Finset.mem_erase.mpr ⟨hc.2, Finset.mem_erase.mpr ⟨hc.1, hx.1⟩⟩))
    have hHcard : (occSet M ref \ occSet M d).card ≤ 2 := by
      calc (occSet M ref \ occSet M d).card ≤ (insert ih2 ({jh2} : Finset ℕ)).card :=
            Finset.card_le_card hHsub
        _ ≤ ({jh2} : Finset ℕ).card + 1 := Finset.card_insert_le _ _
        _ = 2 := by rw [Finset.card_singleton]
    have hEq : (occSet M ref \ occSet M d).card = (occSet M d \ occSet M ref).card := by
      have h1 := Finset.card_sdiff_add_card_inter (occSet M ref) (occSet M d)
      have h2 := Finset.card_sdiff_add_card_inter (occSet M d) (occSet M ref)
      rw [hcardS] at h1
      rw [hcardT, Finset.inter_comm] at h2
      omega
    have hPsub : occSet M d \ occSet M ref ⊆ Finset.range M \ occSet M ref :=
      Finset.sdiff_subset_sdiff (Finset.filter_subset _ _) (Finset.Subset.refl _)
    have hHS : occSet M ref \ occSet M d ⊆ occSet M ref := Finset.sdiff_subset
    have hcases : (occSet M ref \ occSet M d).card = 0 ∨
        (occSet M ref \ occSet M d).card = 1 ∨
        (occSet M ref \ occSet M d).card = 2 := by omega
    rcases hcases with hc | hc | hc
    · apply Finset.mem_union_left
      apply Finset.mem_union_left
      rw [Finset.mem_product]
      refine ⟨Finset.mem_powersetCard.mpr ⟨hHS, hc⟩,
        Finset.mem_powersetCard.mpr ⟨hPsub, ?_⟩⟩
      show (occSet M d \ occSet M ref).card = 0
      omega
    · apply Finset.mem_union_left
      apply Finset.mem_union_right
      rw [Finset.mem_product]
      refine ⟨Finset.mem_powersetCard.mpr ⟨hHS, hc⟩,
        Finset.mem_powersetCard.mpr ⟨hPsub, ?_⟩⟩
      show (occSet M d \ occSet M ref).card = 1
      omega
    · apply Finset.mem_union_right
      rw [Finset.mem_product]
      refine ⟨Finset.mem_powersetCard.mpr ⟨hHS, hc⟩,
        Finset.mem_powersetCard.mpr ⟨hPsub, ?_⟩⟩
      show (occSet M d \ occSet M ref).card = 2
      omega
  have hinj : Set.InjOn (fun d => (occSet M ref \ occSet M d, occSet M d \ occSet M ref))
      ((add_particles M (residues M ref)).toFinset : Set ℕ) := by
    intro d1 hd1 d2 hd2 he
    rw [Finset.mem_coe, List.mem_toFinset] at hd1 hd2
    have hfst := congrArg Prod.fst he
    have hsnd := congrArg Prod.snd he
    simp only at hfst hsnd
    have h1 : occSet M d1 = occSet M d2 := by
      calc occSet M d1
          = occSet M ref \ (occSet M ref \ occSet M d1) ∪ (occSet M d1 \ occSet M ref) :=
            (sdiff_union_sdiff_eq _ _).symm
        _ = occSet M ref \ (occSet M ref \ occSet M d2) ∪ (occSet M d2 \ occSet M ref) := by
            rw [hfst, hsnd]
        _ = occSet M d2 := sdiff_union_sdiff_eq _ _
    exact occSet_inj (cisd_member_lt_two_pow href hd1) (cisd_member_lt_two_pow href hd2) h1
  have hcardle := Finset.card_le_card_of_injOn _ hmaps hinj
  have hdisj01 : Disjoint
      (Finset.powersetCard 0 (occSet M ref) ×ˢ
        Finset.powersetCard 0 (Finset.range M \ occSet M ref))
      (Finset.powersetCard 1 (occSet M ref) ×ˢ
        Finset.powersetCard 1 (Finset.range M \ occSet M ref)) := by
    rw [Finset.disjoint_left]
    intro x hx1 hx2
    rw [Finset.mem_product] at hx1 hx2
    have c1 := (Finset.mem_powersetCard.mp hx1.1).2
    have c2 := (Finset.mem_powersetCard.mp hx2.1).2
    omega
  have hdisj2 : Disjoint
      (Finset.powersetCard 0 (occSet M ref) ×ˢ
          Finset.powersetCard 0 (Finset.range M \ occSet M ref) ∪
        Finset.powersetCard 1 (occSet M ref) ×ˢ
          Finset.powersetCard 1 (Finset.range M \ occSet M ref))
      (Finset.powersetCard 2 (occSet M ref) ×ˢ
        Finset.powersetCard 2 (Finset.range M \ occSet M ref)) := by
    rw [Finset.disjoint_left]
    intro x hx1 hx2
    rw [Finset.mem_union] at hx1
    rw [Finset.mem_product] at hx2
    have c2 := (Finset.mem_powersetCard.mp hx2.1).2
    rcases hx1 with hx1 | hx1 <;> rw [Finset.mem_product] at hx1
    · have c1 := (Finset.mem_powersetCard.mp hx1.1).2
      omega
    · have c1 := (Finset.mem_powersetCard.mp hx1.1).2
      omega
  have hcardTgt :
      ((Finset.powersetCard 0 (occSet M ref) ×ˢ
          Finset.powersetCard 0 (Finset.range M \ occSet M ref) ∪
        Finset.powersetCard 1 (occSet M ref) ×ˢ
          Finset.powersetCard 1 (Finset.range M \ occSet M ref)) ∪
        Finset.powersetCard 2 (occSet M ref) ×ˢ
          Finset.powersetCard 2 (Finset.range M \ occSet M ref)).card =
      1 + N * (M - N) + N.choose 2 * (M - N).choose 2 := by
    rw [Finset.card_union_of_disjoint hdisj2, Finset.card_union_of_disjoint hdisj01,
      Finset.card_product, Finset.card_product, Finset.card_product,
      Finset.card_powersetCard, Finset.card_powersetCard, Finset.card_powersetCard,
      Finset.card_powersetCard, Finset.card_powersetCard, Finset.card_powersetCard,
      hcardS, hcardV, Nat.choose_zero_right, Nat.choose_zero_right,
      Nat.choose_one_right, Nat.choose_one_right]
  rw [hcardTgt] at hcardle
  linarith

/-- C5: for every reference determinant with N occupied orbitals among M
spin orbitals (2 ≤ N ≤ M), the CISD generator (residues then add_particles)
returns a duplicate-free list of at most C(N,2)*C(M-N,2) + N*(M-N) + 1
determinants that contains the reference itself and every single and double
excitation of it (popcount(d xor ref) = 2 or 4 with N bits set). -/
theorem claim_C5 : ∀ (N M ref : ℕ), 2 ≤ N → N ≤ M → ref < 2 ^ M → popcount ref = N →
    (add_particles M (residues M ref)).Nodup ∧
    (add_particles M (residues M ref)).length ≤
      N.choose 2 * (M - N).choose 2 + N * (M - N) + 1 ∧
    ref ∈ add_particles M (residues M ref) ∧
    ∀ d, d < 2 ^ M → popcount d = N →
      (popcount (d ^^^ ref) = 2 ∨ popcount (d ^^^ ref) = 4) →
      d ∈ add_particles M (residues M ref) := by
  intro N M ref hN hNM href hpop
  exact ⟨add_particles_nodup M _, cisd_length_bound href hpop,
    cisd_contains_ref hN href hpop, cisd_complete hN href hpop⟩

theorem claim_C5_witness :
    (add_particles 3 (residues 3 3)).Nodup ∧
    (add_particles 3 (residues 3 3)).length ≤
      Nat.choose 2 2 * Nat.choose (3 - 2) 2 + 2 * (3 - 2) + 1 ∧
    3 ∈ add_particles 3 (residues 3 3) ∧
    ∀ d, d < 2 ^ 3 → popcount d = 2 →
      (popcount (d ^^^ 3) = 2 ∨ popcount (d ^^^ 3) = 4) →
      d ∈ add_particles 3 (residues 3 3) :=
  claim_C5 2 3 3 (by decide) (by decide) (by decide) (by decide)

end MMD
